import Mathlib

/-!
# Channel listing handler of the Slack MCP server

A shallow embedding of `pkg/handler/channels.go`: the tool handler
`ChannelsHandler.ChannelsHandler` with its cursor pagination loop, the
normalisation of upstream records into `Channel` rows, the sort step and the
CSV encoding, followed by the properties established about them.

The upstream client (`slack-go`), the request accessors (`mcp-go`), the
standard library sort (`sort.Slice`) and the CSV encoder (`gocsv` on top of
`encoding/csv`) are the collaborators the handler calls; each is embedded by
the behaviour the handler observes.
-/

set_option autoImplicit false

namespace SlackMcp

/-! ## Data model -/

/-- Go `error` values, identified by their message. -/
abbrev GoError := String

/-- The `Topic` and `Purpose` sub-records of `slack.Channel`; the handler reads
their `Value`. -/
structure Topic where
  Value : String
  deriving DecidableEq, Repr

/-- The fields of `slack.Channel` the handler reads, together with the flags
that tell the conversation kinds apart.  A field absent from the upstream
answer holds its Go zero value (`""`, `0`, `false`). -/
structure SlackChannel where
  ID : String
  Name : String
  Topic : SlackMcp.Topic
  Purpose : SlackMcp.Topic
  NumMembers : Int
  IsChannel : Bool
  IsIM : Bool
  IsMpIM : Bool
  IsPrivate : Bool
  deriving DecidableEq, Repr

/-- The row type `Channel` of `channels.go`. -/
structure Channel where
  ID : String
  Name : String
  Topic : String
  Purpose : String
  MemberCount : Int
  deriving DecidableEq, Repr

/-- The fields of `slack.GetConversationsParameters` the handler sets. -/
structure GetConversationsParameters where
  Cursor : String
  ExcludeArchived : Bool
  Limit : Nat
  Types : List String
  deriving DecidableEq, Repr

/-- The three values `GetConversationsContext` returns. -/
structure ListingPage where
  chans : List SlackChannel
  nextcur : String
  err : Option GoError
  deriving DecidableEq, Repr

/-- The upstream client handle.  `GetConversationsContext k params` is the
answer to the call number `k` (counted from 0 within one handler invocation)
made with `params`, so an upstream may answer the same parameters differently
on different calls. -/
structure Api where
  GetConversationsContext : Nat → GetConversationsParameters → ListingPage

/-- Variable `AllChanTypes`. -/
def AllChanTypes : List String := ["mpim", "im", "public_channel", "private_channel"]

/-- Variable `PubChanType`. -/
def PubChanType : List String := ["public_channel"]

/-! ## Request accessors -/

/-- A JSON argument value of a tool call, as far as the accessors used by the
handler distinguish them: a string, an array (whose items are strings or
something else, `none`), or any other value. -/
inductive ArgValue where
  | str (s : String)
  | arr (items : List (Option String))
  | other
  deriving DecidableEq, Repr

/-- The arguments of `mcp.CallToolRequest`. -/
structure CallToolRequest where
  arguments : List (String × ArgValue)
  deriving DecidableEq, Repr

/-- Method `request.GetString(key, defaultValue)`: the argument when present and a string,
the default otherwise. -/
def CallToolRequest.GetString (request : CallToolRequest) (key : String)
    (defaultValue : String) : String :=
  match request.arguments.lookup key with
  | some (ArgValue.str s) => s
  | _ => defaultValue

/-- Method `request.GetStringSlice(key, defaultValue)`: the string items of the argument
when present and an array, the default otherwise. -/
def CallToolRequest.GetStringSlice (request : CallToolRequest) (key : String)
    (defaultValue : List String) : List String :=
  match request.arguments.lookup key with
  | some (ArgValue.arr items) => items.filterMap id
  | _ => defaultValue

/-! ## Pagination loop (`channels.go` lines 44-68) -/

/-- The variables of the handler that the `for` loop reads and writes, plus the
trace `calls` of the parameters each upstream call was made with. -/
structure LoopState where
  params : GetConversationsParameters
  channels : List SlackChannel
  err : Option GoError
  calls : List GetConversationsParameters
  deriving DecidableEq, Repr

/-- The `for i := 1; ; i++` loop.  One iteration calls the upstream with the
current `params`, stores the three results (overwriting `err`), leaves the loop
when `nextcur` is empty, and otherwise stores the cursor and appends the page.
The loop has no bound of its own; `fuel` counts the iterations the model may
run and `none` means the loop is still running after that many. -/
def fetchLoop (api : Api) : Nat → LoopState → Option LoopState
  | 0, _ => none
  | fuel + 1, s =>
    let page := api.GetConversationsContext s.calls.length s.params
    if page.nextcur = "" then
      some { s with err := page.err, calls := s.calls ++ [s.params] }
    else
      fetchLoop api fuel
        { params := { s.params with Cursor := page.nextcur }
          channels := s.channels ++ page.chans
          err := page.err
          calls := s.calls ++ [s.params] }

/-- The state the loop starts from: `params` as built at lines 46-50, no
channels, `err` nil after the successful `Provide`. -/
def initialState (channelTypes : List String) : LoopState :=
  { params := { Cursor := "", ExcludeArchived := true, Limit := 100, Types := channelTypes }
    channels := []
    err := none
    calls := [] }

/-- The loop variables after one iteration that did not leave the loop. -/
def advance (api : Api) (s : LoopState) : LoopState :=
  { params := { s.params with Cursor := (api.GetConversationsContext s.calls.length s.params).nextcur }
    channels := s.channels ++ (api.GetConversationsContext s.calls.length s.params).chans
    err := (api.GetConversationsContext s.calls.length s.params).err
    calls := s.calls ++ [s.params] }

/-- The loop variables after the iteration that leaves the loop. -/
def finish (api : Api) (s : LoopState) : LoopState :=
  { s with
    err := (api.GetConversationsContext s.calls.length s.params).err
    calls := s.calls ++ [s.params] }

/-- The loop variables at the start of iteration `k` (counted from 0), had none
of the earlier iterations left the loop. -/
def stateAfter (api : Api) (s : LoopState) : Nat → LoopState
  | 0 => s
  | k + 1 => advance api (stateAfter api s k)

/-- The answer the upstream gives to the call of iteration `k`. -/
def pageAt (api : Api) (s : LoopState) (k : Nat) : ListingPage :=
  api.GetConversationsContext (stateAfter api s k).calls.length (stateAfter api s k).params

/-- An upstream that serves a fixed sequence of pages, one per call, whatever
the parameters; past the end it answers with an empty page and empty cursor. -/
def apiOfPages (pages : List ListingPage) : Api :=
  { GetConversationsContext := fun k _ => pages.getD k { chans := [], nextcur := "", err := none } }

/-! ## Normalisation (lines 70-79) -/

/-- The row built from one upstream record. -/
def toRow (channel : SlackChannel) : Channel :=
  { ID := channel.ID
    Name := "#" ++ channel.Name
    Topic := channel.Topic.Value
    Purpose := channel.Purpose.Value
    MemberCount := channel.NumMembers }

/-- The `for _, channel := range channels` loop, appending one row per record
to `channelList`. -/
def normalizeFrom (channelList : List Channel) : List SlackChannel → List Channel
  | [] => channelList
  | channel :: rest => normalizeFrom (channelList ++ [toRow channel]) rest

/-- Rows of all fetched records, starting from the nil `channelList`. -/
def normalize (channels : List SlackChannel) : List Channel :=
  normalizeFrom [] channels

/-! ## `sort.Slice` (Go standard library, pattern-defeating quicksort)

The handler sorts with `sort.Slice(x, less)` of the Go standard library, which
runs `pdqsort_func` (package `sort`, `zsortfunc.go`, Go 1.19 and later) over
the slice through the pair `lessSwap` of the caller's `less` and a swapper.
The functions below follow that file one by one.  The slice is held as a list;
`less` is given on elements, `Less data i j` being the caller's `less(i, j)`
evaluated on the current contents of the slice.  Loops without a bound of
their own take a `fuel` argument, set by the caller to a count the loop cannot
exceed. -/

namespace GoSort

variable {α : Type}

/-- Call `data.Less(i, j)`. -/
def Less (less : α → α → Bool) (data : List α) (i j : Nat) : Bool :=
  match data[i]?, data[j]? with
  | some x, some y => less x y
  | _, _ => false

/-- Call `data.Swap(i, j)`. -/
def Swap (data : List α) (i j : Nat) : List α :=
  match data[i]?, data[j]? with
  | some x, some y => (data.set i y).set j x
  | _, _ => data

/-- Inner loop of insertion sort: `for j := i; j > a && Less(j, j-1); j--`,
swapping `j` and `j-1`. -/
def insertionInner (less : α → α → Bool) (a : Nat) : Nat → List α → List α
  | 0, data => data
  | j + 1, data =>
    if a < j + 1 ∧ Less less data (j + 1) j then
      insertionInner less a j (Swap data (j + 1) j)
    else data

/-- Function `insertionSort_func(data, a, b)`: `for i := a + 1; i < b; i++` around the
inner loop. -/
def insertionSortLessFunc (less : α → α → Bool) (data : List α) (a b : Nat) : List α :=
  (List.range' (a + 1) (b - (a + 1))).foldl (fun d i => insertionInner less a i d) data

/-- Function `siftDown_func(data, lo, hi, first)`; the loop variable `root` starts at `lo`
and at least doubles on every round, `fuel` bounds the rounds. -/
def siftDownLessFunc (less : α → α → Bool) (hi first : Nat) : Nat → Nat → List α → List α
  | 0, _, data => data
  | fuel + 1, root, data =>
    if 2 * root + 1 ≥ hi then data
    else
      let child :=
        if 2 * root + 2 < hi ∧ Less less data (first + (2 * root + 1)) (first + (2 * root + 2))
        then 2 * root + 2 else 2 * root + 1
      if Less less data (first + root) (first + child) then
        siftDownLessFunc less hi first fuel child (Swap data (first + root) (first + child))
      else data

/-- Function `heapSort_func(data, a, b)`: build the heap for `i` from `(hi-1)/2` down to
0, then pop for `i` from `hi-1` down to 0. -/
def heapSortLessFunc (less : α → α → Bool) (data : List α) (a b : Nat) : List α :=
  let first := a
  let hi := b - a
  let built := (List.range ((hi - 1) / 2 + 1)).reverse.foldl
    (fun d i => siftDownLessFunc less hi first hi i d) data
  (List.range hi).reverse.foldl
    (fun d i => siftDownLessFunc less i first i 0 (Swap d first (first + i))) built

/-- Method `Next` of `xorshift` (a `uint64`).  The values it yields only pick the
positions `breakPatterns_func` swaps. -/
def xorshiftNext (r : Nat) : Nat :=
  let r1 := r ^^^ ((r <<< 13) % 2 ^ 64)
  let r2 := r1 ^^^ (r1 >>> 7)
  r2 ^^^ ((r2 <<< 17) % 2 ^ 64)

/-- Function `bits.Len`: the number of bits needed to write `n`. -/
def bitsLen (n : Nat) : Nat := if n = 0 then 0 else Nat.log2 n + 1

/-- Function `nextPowerOfTwo(length)`. -/
def nextPowerOfTwo (length : Nat) : Nat := 2 ^ bitsLen length

/-- The index `other` drawn from a value of the generator. -/
def breakIndex (length random : Nat) : Nat :=
  let other := random % nextPowerOfTwo length
  if other ≥ length then other - length else other

/-- Function `breakPatterns_func(data, a, b)`: three swaps around the middle with
pseudo-random positions of the range. -/
def breakPatternsLessFunc (data : List α) (a b : Nat) : List α :=
  let length := b - a
  if length ≥ 8 then
    let idx := a + (length / 4) * 2 - 1
    let r1 := xorshiftNext length
    let r2 := xorshiftNext r1
    let r3 := xorshiftNext r2
    let d1 := Swap data (idx - 1) (a + breakIndex length r1)
    let d2 := Swap d1 idx (a + breakIndex length r2)
    Swap d2 (idx + 1) (a + breakIndex length r3)
  else data

/-- Type `sortedHint`. -/
inductive SortedHint where
  | unknownHint
  | increasingHint
  | decreasingHint
  deriving DecidableEq, Repr

/-- Function `order2_func(data, a, b, swaps)`: the two indices in order, and the updated
count of swaps. -/
def order2LessFunc (less : α → α → Bool) (data : List α) (a b swaps : Nat) :
    Nat × Nat × Nat :=
  if Less less data b a then (b, a, swaps + 1) else (a, b, swaps)

/-- Function `median_func(data, a, b, c, swaps)`: index of the median and the updated
count of swaps. -/
def medianLessFunc (less : α → α → Bool) (data : List α) (a b c swaps : Nat) : Nat × Nat :=
  let s1 := order2LessFunc less data a b swaps
  let s2 := order2LessFunc less data s1.2.1 c s1.2.2
  let s3 := order2LessFunc less data s1.1 s2.1 s2.2.2
  (s3.2.1, s3.2.2)

/-- Function `medianAdjacent_func(data, a, swaps)`. -/
def medianAdjacentLessFunc (less : α → α → Bool) (data : List α) (a swaps : Nat) : Nat × Nat :=
  medianLessFunc less data (a - 1) a (a + 1) swaps

/-- Function `choosePivot_func(data, a, b)`. -/
def choosePivotLessFunc (less : α → α → Bool) (data : List α) (a b : Nat) :
    Nat × SortedHint :=
  let l := b - a
  let i := a + l / 4 * 1
  let j := a + l / 4 * 2
  let k := a + l / 4 * 3
  let r :=
    if l ≥ 8 then
      if l ≥ 50 then
        let mi := medianAdjacentLessFunc less data i 0
        let mj := medianAdjacentLessFunc less data j mi.2
        let mk := medianAdjacentLessFunc less data k mj.2
        medianLessFunc less data mi.1 mj.1 mk.1 mk.2
      else medianLessFunc less data i j k 0
    else (j, 0)
  if r.2 = 0 then (r.1, SortedHint.increasingHint)
  else if r.2 = 4 * 3 then (r.1, SortedHint.decreasingHint)
  else (r.1, SortedHint.unknownHint)

/-- Loop of `reverseRange_func`: `for i < j`, swap and move both inwards. -/
def reverseLoop : Nat → List α → Nat → Nat → List α
  | 0, data, _, _ => data
  | fuel + 1, data, i, j =>
    if i < j then reverseLoop fuel (Swap data i j) (i + 1) (j - 1) else data

/-- Function `reverseRange_func(data, a, b)`. -/
def reverseRangeLessFunc (data : List α) (a b : Nat) : List α :=
  reverseLoop (b - a) data a (b - 1)

/-- First loop of `partialInsertionSort_func`: `for i < b && !Less(i, i-1) { i++ }`. -/
def scanSorted (less : α → α → Bool) (data : List α) (b : Nat) : Nat → Nat → Nat
  | 0, i => i
  | fuel + 1, i =>
    if i < b ∧ Less less data i (i - 1) = false then scanSorted less data b fuel (i + 1) else i

/-- Loop shifting the smaller element to the left:
`for j := i - 1; j >= 1; j-- { if !Less(j, j-1) { break }; Swap(j, j-1) }`. -/
def shiftLeft (less : α → α → Bool) : Nat → List α → List α
  | 0, data => data
  | j + 1, data =>
    if Less less data (j + 1) j then shiftLeft less j (Swap data (j + 1) j) else data

/-- Loop shifting the greater element to the right:
`for j := i + 1; j < b; j++ { if !Less(j, j-1) { break }; Swap(j, j-1) }`. -/
def shiftRight (less : α → α → Bool) (b : Nat) : Nat → Nat → List α → List α
  | 0, _, data => data
  | fuel + 1, j, data =>
    if j < b ∧ Less less data j (j - 1) then shiftRight less b fuel (j + 1) (Swap data j (j - 1))
    else data

/-- The `for j := 0; j < maxSteps; j++` loop of `partialInsertionSort_func`, with
`steps` rounds left. -/
def partialInsertionSteps (less : α → α → Bool) (a b : Nat) :
    Nat → Nat → List α → List α × Bool
  | 0, _, data => (data, false)
  | steps + 1, i, data =>
    let i1 := scanSorted less data b (b - i) i
    if i1 = b then (data, true)
    else if b - a < 50 then (data, false)
    else
      let d1 := Swap data i1 (i1 - 1)
      let d2 := if i1 - a ≥ 2 then shiftLeft less (i1 - 1) d1 else d1
      let d3 := if b - i1 ≥ 2 then shiftRight less b (b - (i1 + 1)) (i1 + 1) d2 else d2
      partialInsertionSteps less a b steps i1 d3

/-- Function `partialInsertionSort_func(data, a, b)` with `maxSteps = 5` and
`shortestShifting = 50`: the slice and whether it is sorted at the end. -/
def partialInsertionSortLessFunc (less : α → α → Bool) (data : List α) (a b : Nat) :
    List α × Bool :=
  partialInsertionSteps less a b 5 (a + 1) data

/-- Loop `for i <= j && Less(i, a) { i++ }` of `partition_func`. -/
def scanUp (less : α → α → Bool) (data : List α) (a j : Nat) : Nat → Nat → Nat
  | 0, i => i
  | fuel + 1, i => if i ≤ j ∧ Less less data i a then scanUp less data a j fuel (i + 1) else i

/-- Loop `for i <= j && !Less(j, a) { j-- }` of `partition_func`. -/
def scanDown (less : α → α → Bool) (data : List α) (a i : Nat) : Nat → Nat
  | 0 => 0
  | j + 1 => if i ≤ j + 1 ∧ Less less data (j + 1) a = false then scanDown less data a i j else j + 1

/-- The second `for` loop of `partition_func`: the slice and the final `j`. -/
def partitionLoop (less : α → α → Bool) (a : Nat) : Nat → List α → Nat → Nat → List α × Nat
  | 0, data, _, j => (data, j)
  | fuel + 1, data, i, j =>
    let i1 := scanUp less data a j (j + 1 - i) i
    let j1 := scanDown less data a i1 j
    if i1 > j1 then (data, j1)
    else partitionLoop less a fuel (Swap data i1 j1) (i1 + 1) (j1 - 1)

/-- Function `partition_func(data, a, b, pivot)`: the slice, the new index of the pivot
and whether the slice was already partitioned. -/
def partitionLessFunc (less : α → α → Bool) (data : List α) (a b pivot : Nat) :
    List α × Nat × Bool :=
  let d0 := Swap data a pivot
  let i := scanUp less d0 a (b - 1) (b - (a + 1)) (a + 1)
  let j := scanDown less d0 a i (b - 1)
  if i > j then (Swap d0 j a, j, true)
  else
    let r := partitionLoop less a (b - a) (Swap d0 i j) (i + 1) (j - 1)
    (Swap r.1 r.2 a, r.2, false)

/-- Loop `for i <= j && !Less(a, i) { i++ }` of `partitionEqual_func`. -/
def scanUpEqual (less : α → α → Bool) (data : List α) (a j : Nat) : Nat → Nat → Nat
  | 0, i => i
  | fuel + 1, i =>
    if i ≤ j ∧ Less less data a i = false then scanUpEqual less data a j fuel (i + 1) else i

/-- Loop `for i <= j && Less(a, j) { j-- }` of `partitionEqual_func`. -/
def scanDownEqual (less : α → α → Bool) (data : List α) (a i : Nat) : Nat → Nat
  | 0 => 0
  | j + 1 => if i ≤ j + 1 ∧ Less less data a (j + 1) then scanDownEqual less data a i j else j + 1

/-- The `for` loop of `partitionEqual_func`: the slice and the final `i`. -/
def partitionEqualLoop (less : α → α → Bool) (a : Nat) :
    Nat → List α → Nat → Nat → List α × Nat
  | 0, data, i, _ => (data, i)
  | fuel + 1, data, i, j =>
    let i1 := scanUpEqual less data a j (j + 1 - i) i
    let j1 := scanDownEqual less data a i1 j
    if i1 > j1 then (data, i1)
    else partitionEqualLoop less a fuel (Swap data i1 j1) (i1 + 1) (j1 - 1)

/-- Function `partitionEqual_func(data, a, b, pivot)`: the slice and the new start. -/
def partitionEqualLessFunc (less : α → α → Bool) (data : List α) (a b pivot : Nat) :
    List α × Nat :=
  partitionEqualLoop less a (b - a) (Swap data a pivot) (a + 1) (b - 1)

/-- Function `pdqsort_func(data, a, b, limit)`.  The `for` loop of the Go function carries
`a`, `b`, `limit`, `wasBalanced` and `wasPartitioned`; a call of the Go function
is the loop entered with both flags true.  Every round and every recursive call
works on a strictly shorter range, `fuel` bounds their nesting. -/
def pdqsortLessFunc (less : α → α → Bool) :
    Nat → List α → Nat → Nat → Nat → Bool → Bool → List α
  | 0, data, _, _, _, _, _ => data
  | fuel + 1, data, a, b, limit, wasBalanced, wasPartitioned =>
    let length := b - a
    if length ≤ 12 then insertionSortLessFunc less data a b
    else if limit = 0 then heapSortLessFunc less data a b
    else
      let d1 := if wasBalanced then data else breakPatternsLessFunc data a b
      let limit1 := if wasBalanced then limit else limit - 1
      let c := choosePivotLessFunc less d1 a b
      let d2 := if c.2 = SortedHint.decreasingHint then reverseRangeLessFunc d1 a b else d1
      let pivot := if c.2 = SortedHint.decreasingHint then (b - 1) - (c.1 - a) else c.1
      let hint := if c.2 = SortedHint.decreasingHint then SortedHint.increasingHint else c.2
      let p :=
        if wasBalanced ∧ wasPartitioned ∧ hint = SortedHint.increasingHint
        then partialInsertionSortLessFunc less d2 a b else (d2, false)
      if p.2 then p.1
      else if 0 < a ∧ Less less p.1 (a - 1) pivot = false then
        let e := partitionEqualLessFunc less p.1 a b pivot
        pdqsortLessFunc less fuel e.1 e.2 b limit1 wasBalanced wasPartitioned
      else
        let q := partitionLessFunc less p.1 a b pivot
        let mid := q.2.1
        let leftLen := mid - a
        let rightLen := b - mid
        let balanceThreshold := length / 8
        if leftLen < rightLen then
          pdqsortLessFunc less fuel
            (pdqsortLessFunc less fuel q.1 a mid limit1 true true)
            (mid + 1) b limit1 (decide (leftLen ≥ balanceThreshold)) q.2.2
        else
          pdqsortLessFunc less fuel
            (pdqsortLessFunc less fuel q.1 (mid + 1) b limit1 true true)
            a mid limit1 (decide (rightLen ≥ balanceThreshold)) q.2.2

/-- Function `sort.Slice(x, less)`. -/
def Slice (less : α → α → Bool) (x : List α) : List α :=
  pdqsortLessFunc less (x.length + 1) x 0 x.length (bitsLen x.length) true true

end GoSort

/-! ## Sort step (lines 81-88) -/

/-- The comparison handed to `sort.Slice`:
`channelList[i].MemberCount > channelList[j].MemberCount`. -/
def byMemberCount (x y : Channel) : Bool := decide (x.MemberCount > y.MemberCount)

/-- The `switch sortType`: `"popularity"` sorts with `sort.Slice`, the default
branch does nothing. -/
def sortStep (sortType : String) (channelList : List Channel) : List Channel :=
  if sortType = "popularity" then GoSort.Slice byMemberCount channelList
  else channelList

/-! ## CSV encoding (`gocsv.MarshalBytes`, line 90)

`gocsv` names the columns after the struct tag with key `csv` (its `TagName`)
and falls back to the Go field name when a field carries no such tag; the
records are written by an `encoding/csv` writer with comma `,` and line end
`\n`. -/

/-- A struct field as `reflect` shows it: its name and its tag, a list of
key-value pairs. -/
structure StructField where
  name : String
  tag : List (String × String)
  deriving DecidableEq, Repr

/-- The fields of `Channel` as declared at lines 17-23. -/
def ChannelFields : List StructField :=
  [ { name := "ID", tag := [("json", "id")] },
    { name := "Name", tag := [("json", "name")] },
    { name := "Topic", tag := [("json", "topic")] },
    { name := "Purpose", tag := [("json", "purpose")] },
    { name := "MemberCount", tag := [("json", "memberCount")] } ]

/-- The tag key `gocsv` reads (`gocsv.TagName`). -/
def TagName : String := "csv"

/-- The column name of a field: the value of its `csv` tag when it has a
non-empty one, the field name otherwise. -/
def columnName (f : StructField) : String :=
  match f.tag.lookup TagName with
  | some key => if key = "" then f.name else key
  | none => f.name

/-- Function `unicode.IsSpace`. -/
def isSpace (c : Char) : Bool :=
  let n := c.toNat
  n = 9 ∨ n = 10 ∨ n = 11 ∨ n = 12 ∨ n = 13 ∨ n = 32 ∨ n = 0x85 ∨ n = 0xA0 ∨ n = 0x1680 ∨
    (0x2000 ≤ n ∧ n ≤ 0x200A) ∨ n = 0x2028 ∨ n = 0x2029 ∨ n = 0x202F ∨ n = 0x205F ∨ n = 0x3000

/-- Method `fieldNeedsQuotes` of `csv.Writer`, for the comma `,`. -/
def fieldNeedsQuotes (field : String) : Bool :=
  match field.toList with
  | [] => false
  | c :: rest =>
    if field = "\\." then true
    else if (c :: rest).any (fun d => d.toNat = 10 ∨ d.toNat = 13 ∨ d.toNat = 34 ∨ d.toNat = 44)
    then true
    else isSpace c

/-- One field as `csv.Writer.Write` emits it: verbatim, or between quotes with
every quote doubled. -/
def writeField (field : String) : String :=
  if fieldNeedsQuotes field then
    "\"" ++ String.join (field.toList.map
      (fun c => if c.toNat = 34 then "\"\"" else String.singleton c)) ++ "\""
  else field

/-- One record as `csv.Writer.Write` emits it: the fields separated by commas
and a line feed at the end. -/
def writeRecord (record : List String) : String :=
  ",".intercalate (record.map writeField) ++ "\n"

/-- The field values of a row as strings, in declaration order. -/
def rowFields (row : Channel) : List String :=
  [row.ID, row.Name, row.Topic, row.Purpose, toString row.MemberCount]

/-- Function `gocsv.MarshalBytes(&channelList)`: the header record, then one record per
row in slice order. -/
def MarshalBytes (channelList : List Channel) : Except GoError String :=
  Except.ok (writeRecord (ChannelFields.map columnName) ++
    String.join (channelList.map (fun row => writeRecord (rowFields row))))

/-! ## The handler (lines 35-96) -/

/-- What one invocation leaves behind: the pair `(*mcp.CallToolResult, error)`
it returns (`ok text` for a text result with nil error, `error e` for a nil
result with error `e`), and the parameters of the upstream calls it made, in
order. -/
structure Outcome where
  result : Except GoError String
  calls : List GetConversationsParameters

/-- Method `ChannelsHandler.ChannelsHandler`.  `provide` is what `ch.apiProvider.Provide()`
returns; `none` means the pagination loop is still running after `fuel`
iterations. -/
def ChannelsHandler (provide : Except GoError Api) (request : CallToolRequest) (fuel : Nat) :
    Option Outcome :=
  let sortType := request.GetString "sort" "popularity"
  let channelTypes := request.GetStringSlice "channel_types" PubChanType
  match provide with
  | Except.error err => some { result := Except.error err, calls := [] }
  | Except.ok api =>
    match fetchLoop api fuel (initialState channelTypes) with
    | none => none
    | some s =>
      match MarshalBytes (sortStep sortType (normalize s.channels)) with
      | Except.error err => some { result := Except.error err, calls := s.calls }
      | Except.ok csvBytes => some { result := Except.ok csvBytes, calls := s.calls }

/-! ## Concrete inputs used below -/

/-- An upstream record of a public channel with the given ID, name and member
count. -/
def record (id name : String) (members : Int) : SlackChannel :=
  { ID := id, Name := name, Topic := { Value := "" }, Purpose := { Value := "" },
    NumMembers := members, IsChannel := true, IsIM := false, IsMpIM := false,
    IsPrivate := false }

/-- A first page of three records with next cursor `"abc"`. -/
def pageOne : ListingPage :=
  { chans := [record "C1" "general" 10, record "C2" "random" 7, record "C3" "dev" 4]
    nextcur := "abc"
    err := none }

/-- A second and last page of two records with an empty cursor. -/
def pageTwo : ListingPage :=
  { chans := [record "C4" "ops" 12, record "C5" "news" 1]
    nextcur := ""
    err := none }

/-- A first page of three records whose member counts are not in order, with
next cursor `"abc"`. -/
def pageMixed : ListingPage :=
  { chans := [record "C1" "general" 4, record "C2" "random" 12, record "C3" "dev" 7]
    nextcur := "abc"
    err := none }

/-- What `slack-go` returns for a failed call: no records, empty cursor and the
error. -/
def failedPage : ListingPage :=
  { chans := [], nextcur := "", err := some "slack: request failed" }

/-- An upstream that returns the cursor `"next"` on every call. -/
def endlessApi : Api :=
  { GetConversationsContext := fun _ _ => { chans := [], nextcur := "next", err := none } }

/-- A request without arguments. -/
def emptyRequest : CallToolRequest := { arguments := [] }

/-- A row with the given ID and member count. -/
def row (id : String) (members : Int) : Channel :=
  { ID := id, Name := "#" ++ id, Topic := "", Purpose := "", MemberCount := members }

/-- Thirteen rows: twelve with five members each, then one with nine. -/
def tieRows : List Channel :=
  [row "A" 5, row "B" 5, row "C" 5, row "D" 5, row "E" 5, row "F" 5, row "G" 5, row "H" 5,
   row "I" 5, row "J" 5, row "K" 5, row "L" 5, row "M" 9]

/-! ## Vocabulary of the sort proofs -/

namespace GoSort

variable {α : Type}

/-- The rank of the element at index `i`, 0 outside the slice. -/
def val (rank : α → Int) (d : List α) (i : Nat) : Int := ((d[i]?).map rank).getD 0

/-- The slices reachable from `d` by swaps of positions within `[a, b)`. -/
inductive Reach (a b : Nat) (d : List α) : List α → Prop
  | refl : Reach a b d d
  | step {e : List α} (i j : Nat) : Reach a b d e → a ≤ i → i < b → a ≤ j → j < b →
      i < e.length → j < e.length → Reach a b d (Swap e i j)

/-- The ranks of positions `a` to `b - 1` are in non-decreasing order. -/
def SortedOn (rank : α → Int) (d : List α) (a b : Nat) : Prop :=
  ∀ i j, a ≤ i → i ≤ j → j < b → val rank d i ≤ val rank d j

/-- Every position of `[a, b)` ranks at least as high as the position just
before the range, when there is one. -/
def LowerBounded (rank : α → Int) (d : List α) (a b : Nat) : Prop :=
  0 < a → ∀ k, a ≤ k → k < b → val rank d (a - 1) ≤ val rank d k

/-- The heap stored at `first`, of size `hi`: every node from `lo` on ranks at
least as high as its children. -/
def HeapFrom (rank : α → Int) (d : List α) (first lo hi : Nat) : Prop :=
  ∀ r c, lo ≤ r → (c = 2 * r + 1 ∨ c = 2 * r + 2) → c < hi →
    val rank d (first + c) ≤ val rank d (first + r)

/-- A heap from `lo` on except at node `cur`, whose children still rank no
higher than its parent. -/
def HeapExcept (rank : α → Int) (d : List α) (first lo hi cur : Nat) : Prop :=
  (∀ r c, lo ≤ r → r ≠ cur → (c = 2 * r + 1 ∨ c = 2 * r + 2) → c < hi →
    val rank d (first + c) ≤ val rank d (first + r)) ∧
  (∀ c p, (c = 2 * cur + 1 ∨ c = 2 * cur + 2) → c < hi → lo ≤ p →
    (cur = 2 * p + 1 ∨ cur = 2 * p + 2) → val rank d (first + c) ≤ val rank d (first + p))

end GoSort

/-- Three rows, the first and the last with the same member count. -/
def shortRows : List Channel := [row "A" 5, row "B" 9, row "C" 5]

/-! ## Properties of the pagination loop -/

theorem fetchLoop_succ (api : Api) (fuel : Nat) (s : LoopState) :
    fetchLoop api (fuel + 1) s =
      if (api.GetConversationsContext s.calls.length s.params).nextcur = "" then
        some (finish api s)
      else fetchLoop api fuel (advance api s) := rfl

theorem stateAfter_advance (api : Api) (s : LoopState) (k : Nat) :
    stateAfter api (advance api s) k = stateAfter api s (k + 1) := by
  induction k with
  | zero => rfl
  | succ k ih => simp only [stateAfter, ih]

theorem pageAt_advance (api : Api) (s : LoopState) (k : Nat) :
    pageAt api (advance api s) k = pageAt api s (k + 1) := by
  simp only [pageAt, stateAfter_advance]

/-- The loop returns exactly when some iteration `n` within the fuel is the
first to see an empty cursor, and then with the variables of that iteration. -/
theorem fetchLoop_eq_some_iff (api : Api) (fuel : Nat) (s t : LoopState) :
    fetchLoop api fuel s = some t ↔
      ∃ n, n < fuel ∧ (∀ k, k < n → (pageAt api s k).nextcur ≠ "") ∧
        (pageAt api s n).nextcur = "" ∧ t = finish api (stateAfter api s n) := by
  induction fuel generalizing s with
  | zero => simp [fetchLoop]
  | succ fuel ih =>
    rw [fetchLoop_succ]
    by_cases h : (api.GetConversationsContext s.calls.length s.params).nextcur = ""
    · rw [if_pos h]
      constructor
      · intro ht
        refine ⟨0, Nat.succ_pos _, fun k hk => absurd hk (Nat.not_lt_zero k), h, ?_⟩
        exact (Option.some.inj ht).symm
      · rintro ⟨n, _, hbefore, _, ht⟩
        cases n with
        | zero => rw [ht]; rfl
        | succ n => exact absurd h (hbefore 0 (Nat.succ_pos _))
    · rw [if_neg h, ih]
      constructor
      · rintro ⟨n, hn, hbefore, hlast, ht⟩
        refine ⟨n + 1, Nat.succ_lt_succ hn, ?_, ?_, ?_⟩
        · intro k hk
          cases k with
          | zero => exact h
          | succ k =>
            rw [← pageAt_advance]
            exact hbefore k (Nat.lt_of_succ_lt_succ hk)
        · rw [← pageAt_advance]; exact hlast
        · rw [← stateAfter_advance]; exact ht
      · rintro ⟨n, hn, hbefore, hlast, ht⟩
        cases n with
        | zero => exact absurd hlast h
        | succ n =>
          refine ⟨n, Nat.lt_of_succ_lt_succ hn, ?_, ?_, ?_⟩
          · intro k hk
            rw [pageAt_advance]
            exact hbefore (k + 1) (Nat.succ_lt_succ hk)
          · rw [pageAt_advance]; exact hlast
          · rw [stateAfter_advance]; exact ht

/-- With enough fuel the loop returns at the first empty cursor. -/
theorem fetchLoop_of_first_empty (api : Api) (s : LoopState) (n fuel : Nat)
    (hbefore : ∀ k, k < n → (pageAt api s k).nextcur ≠ "")
    (hlast : (pageAt api s n).nextcur = "") (hfuel : n < fuel) :
    fetchLoop api fuel s = some (finish api (stateAfter api s n)) :=
  (fetchLoop_eq_some_iff api fuel s _).mpr ⟨n, hfuel, hbefore, hlast, rfl⟩

/-- Without an empty cursor the loop never returns. -/
theorem fetchLoop_none_of_no_empty (api : Api) (s : LoopState)
    (h : ∀ k, (pageAt api s k).nextcur ≠ "") (fuel : Nat) :
    fetchLoop api fuel s = none := by
  cases hres : fetchLoop api fuel s with
  | none => rfl
  | some t =>
    obtain ⟨n, _, _, hlast, _⟩ := (fetchLoop_eq_some_iff api fuel s t).mp hres
    exact absurd hlast (h n)

theorem stateAfter_calls_length (api : Api) (s : LoopState) (k : Nat) :
    (stateAfter api s k).calls.length = s.calls.length + k := by
  induction k with
  | zero => rfl
  | succ k ih => simp [stateAfter, advance, ih, Nat.add_assoc]

theorem stateAfter_types (api : Api) (s : LoopState) (k : Nat) :
    (stateAfter api s k).params.Types = s.params.Types ∧
    (stateAfter api s k).params.Limit = s.params.Limit ∧
    (stateAfter api s k).params.ExcludeArchived = s.params.ExcludeArchived := by
  induction k with
  | zero => exact ⟨rfl, rfl, rfl⟩
  | succ k ih => simpa [stateAfter, advance] using ih

theorem stateAfter_channels (api : Api) (s : LoopState) (k : Nat) :
    (stateAfter api s k).channels =
      s.channels ++ ((List.range k).map (fun i => (pageAt api s i).chans)).flatten := by
  induction k with
  | zero => simp [stateAfter]
  | succ k ih =>
    simp [stateAfter, advance, ih, List.range_succ, pageAt]

theorem stateAfter_calls (api : Api) (s : LoopState) (k : Nat) :
    (stateAfter api s k).calls =
      s.calls ++ (List.range k).map (fun i => (stateAfter api s i).params) := by
  induction k with
  | zero => simp [stateAfter]
  | succ k ih =>
    simp [stateAfter, advance, ih, List.range_succ]

/-! ## Properties of the handler -/

/-- With a session, the handler returns when the loop does, and then the text
of the encoded rows: the encoder has no failing case. -/
theorem ChannelsHandler_ok (api : Api) (request : CallToolRequest) (fuel : Nat) :
    ChannelsHandler (Except.ok api) request fuel =
      (fetchLoop api fuel
          (initialState (request.GetStringSlice "channel_types" PubChanType))).map
        (fun s =>
          { result := MarshalBytes
              (sortStep (request.GetString "sort" "popularity") (normalize s.channels))
            calls := s.calls }) := by
  show (match fetchLoop api fuel
      (initialState (request.GetStringSlice "channel_types" PubChanType)) with
    | none => none
    | some s => _) = _
  cases fetchLoop api fuel (initialState (request.GetStringSlice "channel_types" PubChanType)) with
  | none => rfl
  | some s => rfl

theorem normalizeFrom_eq (acc : List Channel) (channels : List SlackChannel) :
    normalizeFrom acc channels = acc ++ channels.map toRow := by
  induction channels generalizing acc with
  | nil => simp [normalizeFrom]
  | cons c rest ih => simp [normalizeFrom, ih]

theorem normalize_eq_map (channels : List SlackChannel) :
    normalize channels = channels.map toRow := by
  simp [normalize, normalizeFrom_eq]

/-- The parameters of the calls a returning loop made are those of the
iterations up to the first empty cursor. -/
theorem fetchLoop_calls (api : Api) (fuel : Nat) (s t : LoopState)
    (h : fetchLoop api fuel s = some t) :
    ∃ n, n < fuel ∧ (∀ k, k < n → (pageAt api s k).nextcur ≠ "") ∧
      (pageAt api s n).nextcur = "" ∧
      t.calls = s.calls ++ (List.range (n + 1)).map (fun i => (stateAfter api s i).params) ∧
      t.channels = s.channels ++ ((List.range n).map (fun i => (pageAt api s i).chans)).flatten ∧
      t.err = (pageAt api s n).err := by
  obtain ⟨n, hn, hbefore, hlast, ht⟩ := (fetchLoop_eq_some_iff api fuel s t).mp h
  refine ⟨n, hn, hbefore, hlast, ?_, ?_, ?_⟩
  · rw [ht]
    simp [finish, stateAfter_calls, List.range_succ]
  · rw [ht]
    simp [finish, stateAfter_channels]
  · rw [ht]; rfl

theorem pageAt_apiOfPages (pages : List ListingPage) (s : LoopState) (k : Nat) :
    pageAt (apiOfPages pages) s k =
      pages.getD (s.calls.length + k) { chans := [], nextcur := "", err := none } := by
  simp [pageAt, apiOfPages, stateAfter_calls_length]

/-- What the loop accumulates from a page sequence whose last page alone has an
empty cursor: the records of every page but the last. -/
theorem fetchLoop_apiOfPages (front : List ListingPage) (last : ListingPage)
    (types : List String) (fuel : Nat)
    (hfront : ∀ p, p ∈ front → p.nextcur ≠ "") (hlast : last.nextcur = "")
    (hfuel : front.length < fuel) :
    ∃ t, fetchLoop (apiOfPages (front ++ [last])) fuel (initialState types) = some t ∧
      t.channels = (front.map (fun p => p.chans)).flatten ∧ t.calls.length = front.length + 1 := by
  have hpage : ∀ k, pageAt (apiOfPages (front ++ [last])) (initialState types) k =
      (front ++ [last]).getD k { chans := [], nextcur := "", err := none } := by
    intro k
    rw [pageAt_apiOfPages]
    simp [initialState]
  have hbefore : ∀ k, k < front.length →
      (pageAt (apiOfPages (front ++ [last])) (initialState types) k).nextcur ≠ "" := by
    intro k hk
    rw [hpage, List.getD_eq_getElem?_getD, List.getElem?_append_left hk,
      List.getElem?_eq_getElem hk]
    exact hfront _ (List.getElem_mem hk)
  have hend : (pageAt (apiOfPages (front ++ [last])) (initialState types) front.length).nextcur
      = "" := by
    rw [hpage, List.getD_eq_getElem?_getD]
    simp [hlast]
  refine ⟨_, fetchLoop_of_first_empty _ _ front.length fuel hbefore hend hfuel, ?_, ?_⟩
  · simp only [finish, stateAfter_channels, initialState, List.nil_append]
    congr 1
    apply List.ext_getElem
    · simp
    · intro i h1 h2
      simp only [List.getElem_map, List.getElem_range]
      have hi : i < front.length := by simpa using h2
      have := hpage i
      simp only [initialState] at this
      rw [this, List.getD_eq_getElem?_getD, List.getElem?_append_left hi,
        List.getElem?_eq_getElem hi]
      rfl
  · simp [finish, stateAfter_calls_length, initialState]

/-! ## Properties of `sort.Slice`

The element type carries a rank and `less x y` holds exactly when `x` ranks
below `y`; the sort is followed through the ranks `val rank d i` of the
positions. -/

namespace GoSort

variable {α : Type}

theorem Swap_of_lt (d : List α) (i j : Nat) (hi : i < d.length) (hj : j < d.length) :
    Swap d i j = (d.set i d[j]).set j d[i] := by
  unfold Swap
  rw [List.getElem?_eq_getElem hi, List.getElem?_eq_getElem hj]

theorem length_Swap (d : List α) (i j : Nat) : (Swap d i j).length = d.length := by
  unfold Swap
  split <;> simp

theorem cons_set_perm (xs : List α) (j : Nat) (h : j < xs.length) (x : α) :
    (xs[j] :: xs.set j x).Perm (x :: xs) := by
  induction xs generalizing j with
  | nil => exact absurd h (Nat.not_lt_zero j)
  | cons y ys ih =>
    cases j with
    | zero => exact List.Perm.swap x y ys
    | succ j =>
      have hj : j < ys.length := Nat.lt_of_succ_lt_succ h
      have h1 : (ys[j] :: y :: ys.set j x).Perm (y :: ys[j] :: ys.set j x) :=
        List.Perm.swap y ys[j] (ys.set j x)
      have h2 : (y :: ys[j] :: ys.set j x).Perm (y :: x :: ys) := (ih j hj).cons y
      exact (h1.trans h2).trans (List.Perm.swap x y ys)

theorem set_set_perm_self (d : List α) (i j : Nat) (hi : i < d.length) (hj : j < d.length) :
    ((d.set i d[j]).set j d[i]).Perm d := by
  induction d generalizing i j with
  | nil => exact absurd hi (Nat.not_lt_zero i)
  | cons x xs ih =>
    cases i with
    | zero =>
      cases j with
      | zero => simp
      | succ j =>
        have h := cons_set_perm xs j (Nat.lt_of_succ_lt_succ hj) x
        simpa using h
    | succ i =>
      cases j with
      | zero =>
        have h := cons_set_perm xs i (Nat.lt_of_succ_lt_succ hi) x
        simpa using h
      | succ j =>
        have h := ih i j (Nat.lt_of_succ_lt_succ hi) (Nat.lt_of_succ_lt_succ hj)
        simpa using h

theorem Swap_perm (d : List α) (i j : Nat) : (Swap d i j).Perm d := by
  by_cases hi : i < d.length
  · by_cases hj : j < d.length
    · rw [Swap_of_lt d i j hi hj]
      exact set_set_perm_self d i j hi hj
    · unfold Swap
      rw [List.getElem?_eq_none (Nat.le_of_not_lt hj)]
      split <;> first | rfl | simp_all
  · unfold Swap
    rw [List.getElem?_eq_none (Nat.le_of_not_lt hi)]

theorem val_Swap (rank : α → Int) (d : List α) (i j k : Nat) (hi : i < d.length)
    (hj : j < d.length) :
    val rank (Swap d i j) k =
      if k = j then val rank d i else if k = i then val rank d j else val rank d k := by
  rw [Swap_of_lt d i j hi hj]
  unfold val
  by_cases hkj : k = j
  · subst hkj
    simp [hi, hj]
  · by_cases hki : k = i
    · subst hki
      simp [hkj, hi, hj, List.getElem?_set, Ne.symm hkj]
    · simp [hkj, hki, List.getElem?_set, Ne.symm hkj, Ne.symm hki]

theorem val_Swap_left (rank : α → Int) (d : List α) (i j : Nat) (hi : i < d.length)
    (hj : j < d.length) : val rank (Swap d i j) i = val rank d j := by
  rw [val_Swap rank d i j i hi hj]
  by_cases h : i = j
  · rw [if_pos h, h]
  · rw [if_neg h, if_pos rfl]

theorem val_Swap_right (rank : α → Int) (d : List α) (i j : Nat) (hi : i < d.length)
    (hj : j < d.length) : val rank (Swap d i j) j = val rank d i := by
  rw [val_Swap rank d i j j hi hj, if_pos rfl]

theorem val_Swap_other (rank : α → Int) (d : List α) (i j k : Nat) (hi : i < d.length)
    (hj : j < d.length) (hki : k ≠ i) (hkj : k ≠ j) :
    val rank (Swap d i j) k = val rank d k := by
  rw [val_Swap rank d i j k hi hj, if_neg hkj, if_neg hki]

theorem Less_eq (rank : α → Int) (less : α → α → Bool)
    (hless : ∀ x y, less x y = decide (rank x < rank y)) (d : List α) (i j : Nat)
    (hi : i < d.length) (hj : j < d.length) :
    Less less d i j = decide (val rank d i < val rank d j) := by
  unfold Less val
  rw [List.getElem?_eq_getElem hi, List.getElem?_eq_getElem hj]
  simp [hless]

theorem Reach.length_eq {a b : Nat} {d e : List α} (h : Reach a b d e) :
    e.length = d.length := by
  induction h with
  | refl => rfl
  | step i j _ _ _ _ _ _ _ ih => rw [length_Swap, ih]

theorem Reach.perm {a b : Nat} {d e : List α} (h : Reach a b d e) : e.Perm d := by
  induction h with
  | refl => exact List.Perm.refl _
  | step i j _ _ _ _ _ _ _ ih => exact (Swap_perm _ i j).trans ih

theorem Reach.val_outside (rank : α → Int) {a b : Nat} {d e : List α} (h : Reach a b d e)
    (k : Nat) (hk : k < a ∨ b ≤ k) : val rank e k = val rank d k := by
  induction h with
  | refl => rfl
  | step i j _ hai hib haj hjb hi hj ih =>
    rw [val_Swap rank _ i j k hi hj, if_neg (by omega), if_neg (by omega), ih]

theorem Reach.forall_range (rank : α → Int) {a b : Nat} {d e : List α} (h : Reach a b d e)
    (P : Int → Prop) (hP : ∀ k, a ≤ k → k < b → P (val rank d k)) :
    ∀ k, a ≤ k → k < b → P (val rank e k) := by
  induction h with
  | refl => exact hP
  | step i j _ hai hib haj hjb hi hj ih =>
    intro k hak hkb
    rw [val_Swap rank _ i j k hi hj]
    split
    · exact ih i hai hib
    · split
      · exact ih j haj hjb
      · exact ih k hak hkb

theorem Reach.trans {a b : Nat} {d e f : List α} (h1 : Reach a b d e) (h2 : Reach a b e f) :
    Reach a b d f := by
  induction h2 with
  | refl => exact h1
  | step i j _ hai hib haj hjb hi hj ih => exact Reach.step i j ih hai hib haj hjb hi hj

theorem Reach.mono {a b a' b' : Nat} {d e : List α} (h : Reach a b d e) (ha : a' ≤ a)
    (hb : b ≤ b') : Reach a' b' d e := by
  induction h with
  | refl => exact Reach.refl
  | step i j _ hai hib haj hjb hi hj ih =>
    exact Reach.step i j ih (by omega) (by omega) (by omega) (by omega) hi hj

theorem Reach.swap {a b : Nat} (d : List α) (i j : Nat) (hai : a ≤ i) (hib : i < b)
    (haj : a ≤ j) (hjb : j < b) (hi : i < d.length) (hj : j < d.length) :
    Reach a b d (Swap d i j) :=
  Reach.step i j Reach.refl hai hib haj hjb hi hj

theorem SortedOn_of_le_one (rank : α → Int) (d : List α) (a b : Nat)
    (h : b ≤ a + 1) : SortedOn rank d a b := by
  intro i j hai hij hjb
  have : i = j := by omega
  rw [this]

section Ranked

variable (rank : α → Int) (less : α → α → Bool)
variable (hless : ∀ x y, less x y = decide (rank x < rank y))
include hless

theorem Less_iff (d : List α) (i j : Nat) (hi : i < d.length) (hj : j < d.length) :
    Less less d i j = true ↔ val rank d i < val rank d j := by
  rw [Less_eq rank less hless d i j hi hj, decide_eq_true_iff]

theorem Less_false_iff (d : List α) (i j : Nat) (hi : i < d.length) (hj : j < d.length) :
    Less less d i j = false ↔ val rank d j ≤ val rank d i := by
  rw [Less_eq rank less hless d i j hi hj, decide_eq_false_iff_not, Int.not_lt]

/-- The inner loop of insertion sort moves the element at `j` left into the
sorted positions before it. -/
theorem insertionInner_spec (a top : Nat) (j : Nat) (d : List α) (haj : a ≤ j) (hjt : j ≤ top)
    (ht : top < d.length)
    (hs : ∀ i k, a ≤ i → i < k → k ≤ top → i ≠ j → k ≠ j → val rank d i ≤ val rank d k)
    (hp : ∀ k, j < k → k ≤ top → val rank d j < val rank d k) :
    Reach a (top + 1) d (insertionInner less a j d) ∧
      SortedOn rank (insertionInner less a j d) a (top + 1) := by
  induction j generalizing d with
  | zero =>
    refine ⟨Reach.refl, ?_⟩
    intro i k hai hik hk
    show val rank d i ≤ val rank d k
    by_cases h0 : i = k
    · rw [h0]
    · by_cases hi0 : i = 0
      · have := hp k (by omega) (by omega)
        rw [hi0]; omega
      · exact hs i k hai (by omega) (by omega) hi0 (by omega)
  | succ j ih =>
    unfold insertionInner
    by_cases hc : a < j + 1 ∧ Less less d (j + 1) j = true
    · rw [if_pos hc]
      have hlt := (Less_iff rank less hless d (j + 1) j (by omega) (by omega)).mp hc.2
      have hv := fun k => val_Swap rank d (j + 1) j k (by omega) (by omega)
      have hr := ih (Swap d (j + 1) j) (by omega) (by omega) (by rw [length_Swap]; exact ht)
        (by
          intro i k hai hik hk hi hkj
          rw [hv i, hv k, if_neg hi, if_neg hkj]
          by_cases hi1 : i = j + 1
          · rw [if_pos hi1, if_neg (by omega)]
            exact hs j k (by omega) (by omega) hk (by omega) (by omega)
          · rw [if_neg hi1]
            by_cases hk1 : k = j + 1
            · rw [if_pos hk1]
              by_cases hij : i = j
              · omega
              · exact hs i j hai (by omega) (by omega) hi1 (by omega)
            · rw [if_neg hk1]
              exact hs i k hai hik hk hi1 hk1)
        (by
          intro k hjk hk
          rw [hv j, hv k, if_pos rfl, if_neg (by omega)]
          by_cases hk1 : k = j + 1
          · rw [if_pos hk1]; exact hlt
          · rw [if_neg hk1]
            exact hp k (by omega) hk)
      exact ⟨(Reach.swap d (j + 1) j (by omega) (by omega) (by omega) (by omega)
        (by omega) (by omega)).trans hr.1, hr.2⟩
    · rw [if_neg hc]
      refine ⟨Reach.refl, ?_⟩
      intro i k hai hik hk
      by_cases h0 : i = k
      · rw [h0]
      · by_cases hi1 : i = j + 1
        · have := hp k (by omega) (by omega)
          rw [hi1]; omega
        · by_cases hk1 : k = j + 1
          · have haj1 : a < j + 1 := by omega
            have hnl : Less less d (j + 1) j = false := by
              cases hl : Less less d (j + 1) j with
              | false => rfl
              | true => exact absurd ⟨haj1, hl⟩ hc
            have hle := (Less_false_iff rank less hless d (j + 1) j (by omega) (by omega)).mp hnl
            rw [hk1]
            by_cases hij : i = j
            · rw [hij]; exact hle
            · have := hs i j hai (by omega) (by omega) hi1 (by omega)
              omega
          · exact hs i k hai (by omega) (by omega) hi1 hk1

theorem insertionFold_spec (a : Nat) (m i : Nat) (d : List α) (hai : a < i)
    (hb : i + m ≤ d.length) (hs : SortedOn rank d a i) :
    Reach a (i + m) d ((List.range' i m).foldl (fun e k => insertionInner less a k e) d) ∧
      SortedOn rank ((List.range' i m).foldl (fun e k => insertionInner less a k e) d)
        a (i + m) := by
  induction m generalizing i d with
  | zero => exact ⟨Reach.refl, hs⟩
  | succ m ih =>
    rw [List.range'_succ, List.foldl_cons]
    have h1 := insertionInner_spec rank less hless a i i d (by omega) (Nat.le_refl i) (by omega)
      (fun p q hp hpq hq _ hqi => hs p q hp (by omega) (by omega))
      (fun k h1 h2 => absurd h1 (by omega))
    have h2 := ih (i + 1) (insertionInner less a i d) (by omega)
      (by rw [h1.1.length_eq]; omega) h1.2
    have e : i + 1 + m = i + (m + 1) := by omega
    rw [e] at h2
    exact ⟨(h1.1.mono (Nat.le_refl a) (by omega)).trans h2.1, h2.2⟩

/-- Insertion sort sorts the range by swaps inside it. -/
theorem insertionSortLessFunc_spec (d : List α) (a b : Nat) (hb : b ≤ d.length) :
    Reach a b d (insertionSortLessFunc less d a b) ∧
      SortedOn rank (insertionSortLessFunc less d a b) a b := by
  unfold insertionSortLessFunc
  by_cases h : a + 1 ≤ b
  · have := insertionFold_spec rank less hless a (b - (a + 1)) (a + 1) d (by omega) (by omega)
      (SortedOn_of_le_one rank d a (a + 1) (Nat.le_refl _))
    have e : a + 1 + (b - (a + 1)) = b := by omega
    rw [e] at this
    exact this
  · have e : b - (a + 1) = 0 := by omega
    rw [e]
    exact ⟨Reach.refl, SortedOn_of_le_one rank d a b (by omega)⟩

end Ranked

/-- Putting the pivot, kept at `a`, at the end `j` of the part below it. -/
theorem placePivot_spec (rank : α → Int) (a b j : Nat) (d : List α) (haj : a ≤ j) (hjb : j < b)
    (hb : b ≤ d.length)
    (hl : ∀ k, a < k → k ≤ j → val rank d k < val rank d a)
    (hr : ∀ k, j < k → k < b → val rank d a ≤ val rank d k) :
    Reach a b d (Swap d j a) ∧ val rank (Swap d j a) j = val rank d a ∧
    (∀ k, a ≤ k → k < j → val rank (Swap d j a) k < val rank d a) ∧
    (∀ k, j < k → k < b → val rank d a ≤ val rank (Swap d j a) k) := by
  have hv := fun k => val_Swap rank d j a k (by omega) (by omega)
  refine ⟨Reach.swap d j a haj hjb (Nat.le_refl a) (by omega) (by omega) (by omega), ?_, ?_, ?_⟩
  · rw [hv j]
    by_cases h : j = a
    · rw [if_pos h, h]
    · rw [if_neg h, if_pos rfl]
  · intro k hk1 hk2
    rw [hv k]
    by_cases h : k = a
    · rw [if_pos h]
      exact hl j (by omega) (Nat.le_refl j)
    · rw [if_neg h, if_neg (by omega)]
      exact hl k (by omega) (by omega)
  · intro k hk1 hk2
    rw [hv k, if_neg (by omega), if_neg (by omega)]
    exact hr k hk1 hk2

section Ranked

variable (rank : α → Int) (less : α → α → Bool)
variable (hless : ∀ x y, less x y = decide (rank x < rank y))
include hless

theorem scanUp_spec (d : List α) (a j : Nat) (fuel i : Nat) (hfuel : j + 1 ≤ i + fuel)
    (hi : i ≤ j + 1) (hj : j < d.length) (ha : a < d.length) :
    i ≤ scanUp less d a j fuel i ∧ scanUp less d a j fuel i ≤ j + 1 ∧
    (∀ k, i ≤ k → k < scanUp less d a j fuel i → val rank d k < val rank d a) ∧
    (scanUp less d a j fuel i ≤ j → val rank d a ≤ val rank d (scanUp less d a j fuel i)) := by
  induction fuel generalizing i with
  | zero =>
    refine ⟨Nat.le_refl i, hi, fun k h1 h2 => absurd h2 (by simp only [scanUp]; omega), ?_⟩
    intro h
    simp only [scanUp] at h
    omega
  | succ fuel ih =>
    unfold scanUp
    by_cases hc : i ≤ j ∧ Less less d i a = true
    · rw [if_pos hc]
      have hlt := (Less_iff rank less hless d i a (by omega) ha).mp hc.2
      obtain ⟨h1, h2, h3, h4⟩ := ih (i + 1) (by omega) (by omega)
      refine ⟨by omega, h2, ?_, h4⟩
      intro k hk1 hk2
      by_cases hki : k = i
      · rw [hki]; exact hlt
      · exact h3 k (by omega) hk2
    · rw [if_neg hc]
      refine ⟨Nat.le_refl i, hi, fun k h1 h2 => absurd h2 (by omega), ?_⟩
      intro hij
      have hnl : Less less d i a = false := by
        cases hl : Less less d i a with
        | false => rfl
        | true => exact absurd ⟨hij, hl⟩ hc
      exact (Less_false_iff rank less hless d i a (by omega) ha).mp hnl

theorem scanDown_spec (d : List α) (a i : Nat) (j : Nat) (hi1 : 1 ≤ i) (hi : i ≤ j + 1)
    (hj : j < d.length) (ha : a < d.length) :
    scanDown less d a i j ≤ j ∧ i ≤ scanDown less d a i j + 1 ∧
    (∀ k, scanDown less d a i j < k → k ≤ j → val rank d a ≤ val rank d k) ∧
    (i ≤ scanDown less d a i j → val rank d (scanDown less d a i j) < val rank d a) := by
  induction j with
  | zero =>
    simp only [scanDown]
    refine ⟨Nat.le_refl 0, by omega, fun k h1 h2 => absurd h1 (by omega), fun h => ?_⟩
    omega
  | succ j ih =>
    unfold scanDown
    by_cases hc : i ≤ j + 1 ∧ Less less d (j + 1) a = false
    · rw [if_pos hc]
      have hle := (Less_false_iff rank less hless d (j + 1) a hj ha).mp hc.2
      obtain ⟨h1, h2, h3, h4⟩ := ih (by omega) (by omega)
      refine ⟨by omega, h2, ?_, h4⟩
      intro k hk1 hk2
      by_cases hkj : k = j + 1
      · rw [hkj]; exact hle
      · exact h3 k hk1 (by omega)
    · rw [if_neg hc]
      refine ⟨Nat.le_refl _, by omega, fun k h1 h2 => absurd h1 (by omega), ?_⟩
      intro hij
      have hl : Less less d (j + 1) a = true := by
        cases hl : Less less d (j + 1) a with
        | true => rfl
        | false => exact absurd ⟨hij, hl⟩ hc
      exact (Less_iff rank less hless d (j + 1) a hj ha).mp hl

theorem scanUpEqual_spec (d : List α) (a j : Nat) (fuel i : Nat) (hfuel : j + 1 ≤ i + fuel)
    (hi : i ≤ j + 1) (hj : j < d.length) (ha : a < d.length) :
    i ≤ scanUpEqual less d a j fuel i ∧ scanUpEqual less d a j fuel i ≤ j + 1 ∧
    (∀ k, i ≤ k → k < scanUpEqual less d a j fuel i → val rank d k ≤ val rank d a) ∧
    (scanUpEqual less d a j fuel i ≤ j →
      val rank d a < val rank d (scanUpEqual less d a j fuel i)) := by
  induction fuel generalizing i with
  | zero =>
    refine ⟨Nat.le_refl i, hi, fun k h1 h2 => absurd h2 (by simp only [scanUpEqual]; omega), ?_⟩
    intro h
    simp only [scanUpEqual] at h
    omega
  | succ fuel ih =>
    unfold scanUpEqual
    by_cases hc : i ≤ j ∧ Less less d a i = false
    · rw [if_pos hc]
      have hle := (Less_false_iff rank less hless d a i ha (by omega)).mp hc.2
      obtain ⟨h1, h2, h3, h4⟩ := ih (i + 1) (by omega) (by omega)
      refine ⟨by omega, h2, ?_, h4⟩
      intro k hk1 hk2
      by_cases hki : k = i
      · rw [hki]; exact hle
      · exact h3 k (by omega) hk2
    · rw [if_neg hc]
      refine ⟨Nat.le_refl i, hi, fun k h1 h2 => absurd h2 (by omega), ?_⟩
      intro hij
      have hl : Less less d a i = true := by
        cases hl : Less less d a i with
        | true => rfl
        | false => exact absurd ⟨hij, hl⟩ hc
      exact (Less_iff rank less hless d a i ha (by omega)).mp hl

theorem scanDownEqual_spec (d : List α) (a i : Nat) (j : Nat) (hi1 : 1 ≤ i) (hi : i ≤ j + 1)
    (hj : j < d.length) (ha : a < d.length) :
    scanDownEqual less d a i j ≤ j ∧ i ≤ scanDownEqual less d a i j + 1 ∧
    (∀ k, scanDownEqual less d a i j < k → k ≤ j → val rank d a < val rank d k) ∧
    (i ≤ scanDownEqual less d a i j →
      val rank d (scanDownEqual less d a i j) ≤ val rank d a) := by
  induction j with
  | zero =>
    simp only [scanDownEqual]
    refine ⟨Nat.le_refl 0, by omega, fun k h1 h2 => absurd h1 (by omega), fun h => ?_⟩
    omega
  | succ j ih =>
    unfold scanDownEqual
    by_cases hc : i ≤ j + 1 ∧ Less less d a (j + 1) = true
    · rw [if_pos hc]
      have hlt := (Less_iff rank less hless d a (j + 1) ha hj).mp hc.2
      obtain ⟨h1, h2, h3, h4⟩ := ih (by omega) (by omega)
      refine ⟨by omega, h2, ?_, h4⟩
      intro k hk1 hk2
      by_cases hkj : k = j + 1
      · rw [hkj]; exact hlt
      · exact h3 k hk1 (by omega)
    · rw [if_neg hc]
      refine ⟨Nat.le_refl _, by omega, fun k h1 h2 => absurd h1 (by omega), ?_⟩
      intro hij
      have hnl : Less less d a (j + 1) = false := by
        cases hl : Less less d a (j + 1) with
        | false => rfl
        | true => exact absurd ⟨hij, hl⟩ hc
      exact (Less_false_iff rank less hless d a (j + 1) ha hj).mp hnl

/-- The main loop of `partition_func` keeps the pivot at `a`, the ranks left of
`i` below the pivot and the ranks right of `j` not below it. -/
theorem partitionLoop_spec (a b : Nat) (fuel : Nat) (d : List α) (i j : Nat)
    (hfuel : j + 1 - i < fuel) (hai : a < i) (hij : i ≤ j + 1) (hjb : j < b)
    (hb : b ≤ d.length)
    (hl : ∀ k, a < k → k < i → val rank d k < val rank d a)
    (hr : ∀ k, j < k → k < b → val rank d a ≤ val rank d k) :
    Reach (a + 1) b d (partitionLoop less a fuel d i j).1 ∧
    a ≤ (partitionLoop less a fuel d i j).2 ∧ (partitionLoop less a fuel d i j).2 < b ∧
    (∀ k, a < k → k ≤ (partitionLoop less a fuel d i j).2 →
      val rank (partitionLoop less a fuel d i j).1 k < val rank d a) ∧
    (∀ k, (partitionLoop less a fuel d i j).2 < k → k < b →
      val rank d a ≤ val rank (partitionLoop less a fuel d i j).1 k) := by
  induction fuel generalizing d i j with
  | zero => exact absurd hfuel (Nat.not_lt_zero _)
  | succ fuel ih =>
    unfold partitionLoop
    dsimp only
    obtain ⟨u1, u2, u3, u4⟩ := scanUp_spec rank less hless d a j (j + 1 - i) i (by omega) hij
      (by omega) (by omega)
    generalize scanUp less d a j (j + 1 - i) i = i1 at u1 u2 u3 u4
    obtain ⟨v1, v2, v3, v4⟩ := scanDown_spec rank less hless d a i1 j (by omega) u2
      (by omega) (by omega)
    generalize scanDown less d a i1 j = j1 at v1 v2 v3 v4
    by_cases hc : i1 > j1
    · rw [if_pos hc]
      refine ⟨Reach.refl, by omega, by omega, ?_, ?_⟩
      · intro k hk1 hk2
        by_cases hki : k < i
        · exact hl k hk1 hki
        · exact u3 k (by omega) (by omega)
      · intro k hk1 hk2
        by_cases hkj : k ≤ j
        · exact v3 k hk1 hkj
        · exact hr k (by omega) hk2
    · rw [if_neg hc]
      have hi1 := u4 (by omega)
      have hj1 := v4 (by omega)
      have hne : i1 ≠ j1 := by
        intro h
        rw [h] at hi1
        omega
      have hv := fun k => val_Swap rank d i1 j1 k (by omega) (by omega)
      have hva : val rank (Swap d i1 j1) a = val rank d a := by
        rw [hv a, if_neg (by omega), if_neg (by omega)]
      have hr' := ih (Swap d i1 j1) (i1 + 1) (j1 - 1) (by omega) (by omega) (by omega) (by omega)
        (by rw [length_Swap]; exact hb)
        (by
          intro k hk1 hk2
          rw [hva, hv k, if_neg (by omega)]
          by_cases hki : k = i1
          · rw [if_pos hki]; exact hj1
          · rw [if_neg hki]
            by_cases hki' : k < i
            · exact hl k hk1 hki'
            · exact u3 k (by omega) (by omega))
        (by
          intro k hk1 hk2
          rw [hva, hv k]
          by_cases hkj : k = j1
          · rw [if_pos hkj]; exact hi1
          · rw [if_neg hkj, if_neg (by omega)]
            by_cases hkj' : k ≤ j
            · exact v3 k (by omega) hkj'
            · exact hr k (by omega) hk2)
      rw [hva] at hr'
      exact ⟨(Reach.swap d i1 j1 (by omega) (by omega) (by omega) (by omega) (by omega)
        (by omega)).trans hr'.1, hr'.2⟩

/-- Function `partition_func` splits the range around the rank of the pivot. -/
theorem partitionLessFunc_spec (d : List α) (a b pivot : Nat) (hab : a < b)
    (hb : b ≤ d.length) (hpa : a ≤ pivot) (hpb : pivot < b) :
    Reach a b d (partitionLessFunc less d a b pivot).1 ∧
    a ≤ (partitionLessFunc less d a b pivot).2.1 ∧
    (partitionLessFunc less d a b pivot).2.1 < b ∧
    val rank (partitionLessFunc less d a b pivot).1 (partitionLessFunc less d a b pivot).2.1
      = val rank d pivot ∧
    (∀ k, a ≤ k → k < (partitionLessFunc less d a b pivot).2.1 →
      val rank (partitionLessFunc less d a b pivot).1 k < val rank d pivot) ∧
    (∀ k, (partitionLessFunc less d a b pivot).2.1 < k → k < b →
      val rank d pivot ≤ val rank (partitionLessFunc less d a b pivot).1 k) := by
  unfold partitionLessFunc
  dsimp only
  have hv0 := fun k => val_Swap rank d a pivot k (by omega) (by omega)
  have hr0 : Reach a b d (Swap d a pivot) :=
    Reach.swap d a pivot (Nat.le_refl a) hab hpa hpb (by omega) (by omega)
  have hlen0 : (Swap d a pivot).length = d.length := length_Swap d a pivot
  have hpv : val rank (Swap d a pivot) a = val rank d pivot := by
    rw [hv0 a]
    by_cases h : a = pivot
    · rw [if_pos h, h]
    · rw [if_neg h, if_pos rfl]
  generalize Swap d a pivot = d0 at hr0 hlen0 hpv
  obtain ⟨u1, u2, u3, u4⟩ := scanUp_spec rank less hless d0 a (b - 1) (b - (a + 1)) (a + 1)
    (by omega) (by omega) (by omega) (by omega)
  generalize scanUp less d0 a (b - 1) (b - (a + 1)) (a + 1) = i at u1 u2 u3 u4
  obtain ⟨v1, v2, v3, v4⟩ := scanDown_spec rank less hless d0 a i (b - 1) (by omega) u2
    (by omega) (by omega)
  generalize scanDown less d0 a i (b - 1) = j at v1 v2 v3 v4
  by_cases hc : i > j
  · rw [if_pos hc]
    dsimp only
    obtain ⟨p1, p2, p3, p4⟩ := placePivot_spec rank a b j d0 (by omega) (by omega)
      (by omega) (fun k h1 h2 => u3 k (by omega) (by omega))
      (fun k h1 h2 => v3 k h1 (by omega))
    rw [hpv] at p2 p3 p4
    exact ⟨hr0.trans p1, by omega, by omega, p2, p3, p4⟩
  · rw [if_neg hc]
    have hi1 := u4 (by omega)
    have hj1 := v4 (by omega)
    have hne : i ≠ j := by
      intro h
      rw [h] at hi1
      omega
    have hv := fun k => val_Swap rank d0 i j k (by omega) (by omega)
    have hva : val rank (Swap d0 i j) a = val rank d0 a := by
      rw [hv a, if_neg (by omega), if_neg (by omega)]
    have hl := partitionLoop_spec rank less hless a b (b - a) (Swap d0 i j) (i + 1) (j - 1)
      (by omega) (by omega) (by omega) (by omega) (by rw [length_Swap]; omega)
      (by
        intro k hk1 hk2
        rw [hva, hv k, if_neg (by omega)]
        by_cases hki : k = i
        · rw [if_pos hki]; exact hj1
        · rw [if_neg hki]
          exact u3 k (by omega) (by omega))
      (by
        intro k hk1 hk2
        rw [hva, hv k]
        by_cases hkj : k = j
        · rw [if_pos hkj]; exact hi1
        · rw [if_neg hkj, if_neg (by omega)]
          exact v3 k (by omega) (by omega))
    rw [hva] at hl
    obtain ⟨l1, l2, l3, l4, l5⟩ := hl
    dsimp only
    generalize partitionLoop less a (b - a) (Swap d0 i j) (i + 1) (j - 1) = r at l1 l2 l3 l4 l5
    have hr1 : Reach a b d0 r.1 :=
      (Reach.swap d0 i j (by omega) (by omega) (by omega) (by omega) (by omega)
        (by omega)).trans (l1.mono (by omega) (Nat.le_refl b))
    have hra : val rank r.1 a = val rank d0 a := by
      have h1 := l1.val_outside rank a (Or.inl (Nat.lt_succ_self a))
      rw [h1, hva]
    have hlenr : r.1.length = d0.length := hr1.length_eq
    obtain ⟨p1, p2, p3, p4⟩ := placePivot_spec rank a b r.2 r.1 l2 l3
      (by omega) (fun k h1 h2 => by rw [hra]; exact l4 k h1 h2)
      (fun k h1 h2 => by rw [hra]; exact l5 k h1 h2)
    rw [hra, hpv] at p2 p3 p4
    exact ⟨hr0.trans (hr1.trans p1), l2, l3, p2, p3, p4⟩

/-- The loop of `partitionEqual_func` keeps the ranks left of `i` not above the
pivot and the ranks right of `j` above it. -/
theorem partitionEqualLoop_spec (a b : Nat) (fuel : Nat) (d : List α) (i j : Nat)
    (hfuel : j + 1 - i < fuel) (hai : a < i) (hij : i ≤ j + 1) (hjb : j < b)
    (hb : b ≤ d.length)
    (hl : ∀ k, a < k → k < i → val rank d k ≤ val rank d a)
    (hr : ∀ k, j < k → k < b → val rank d a < val rank d k) :
    Reach (a + 1) b d (partitionEqualLoop less a fuel d i j).1 ∧
    a < (partitionEqualLoop less a fuel d i j).2 ∧ (partitionEqualLoop less a fuel d i j).2 ≤ b ∧
    (∀ k, a < k → k < (partitionEqualLoop less a fuel d i j).2 →
      val rank (partitionEqualLoop less a fuel d i j).1 k ≤ val rank d a) ∧
    (∀ k, (partitionEqualLoop less a fuel d i j).2 ≤ k → k < b →
      val rank d a < val rank (partitionEqualLoop less a fuel d i j).1 k) := by
  induction fuel generalizing d i j with
  | zero => exact absurd hfuel (Nat.not_lt_zero _)
  | succ fuel ih =>
    unfold partitionEqualLoop
    dsimp only
    obtain ⟨u1, u2, u3, u4⟩ := scanUpEqual_spec rank less hless d a j (j + 1 - i) i (by omega)
      hij (by omega) (by omega)
    generalize scanUpEqual less d a j (j + 1 - i) i = i1 at u1 u2 u3 u4
    obtain ⟨v1, v2, v3, v4⟩ := scanDownEqual_spec rank less hless d a i1 j (by omega) u2
      (by omega) (by omega)
    generalize scanDownEqual less d a i1 j = j1 at v1 v2 v3 v4
    by_cases hc : i1 > j1
    · rw [if_pos hc]
      refine ⟨Reach.refl, by dsimp only; omega, by dsimp only; omega, ?_, ?_⟩
      · intro k hk1 hk2
        by_cases hki : k < i
        · exact hl k hk1 hki
        · exact u3 k (by omega) hk2
      · intro k hk1 hk2
        have hk1' : i1 ≤ k := hk1
        by_cases hkj : k ≤ j
        · exact v3 k (by omega) hkj
        · exact hr k (by omega) hk2
    · rw [if_neg hc]
      have hi1 := u4 (by omega)
      have hj1 := v4 (by omega)
      have hne : i1 ≠ j1 := by
        intro h
        rw [h] at hi1
        omega
      have hv := fun k => val_Swap rank d i1 j1 k (by omega) (by omega)
      have hva : val rank (Swap d i1 j1) a = val rank d a := by
        rw [hv a, if_neg (by omega), if_neg (by omega)]
      have hr' := ih (Swap d i1 j1) (i1 + 1) (j1 - 1) (by omega) (by omega) (by omega) (by omega)
        (by rw [length_Swap]; exact hb)
        (by
          intro k hk1 hk2
          rw [hva, hv k, if_neg (by omega)]
          by_cases hki : k = i1
          · rw [if_pos hki]; exact hj1
          · rw [if_neg hki]
            by_cases hki' : k < i
            · exact hl k hk1 hki'
            · exact u3 k (by omega) (by omega))
        (by
          intro k hk1 hk2
          rw [hva, hv k]
          by_cases hkj : k = j1
          · rw [if_pos hkj]; exact hi1
          · rw [if_neg hkj, if_neg (by omega)]
            by_cases hkj' : k ≤ j
            · exact v3 k (by omega) hkj'
            · exact hr k (by omega) hk2)
      rw [hva] at hr'
      exact ⟨(Reach.swap d i1 j1 (by omega) (by omega) (by omega) (by omega) (by omega)
        (by omega)).trans hr'.1, hr'.2⟩

/-- Function `partitionEqual_func` moves the ranks not above the pivot's to the front. -/
theorem partitionEqualLessFunc_spec (d : List α) (a b pivot : Nat) (hab : a < b)
    (hb : b ≤ d.length) (hpa : a ≤ pivot) (hpb : pivot < b) :
    Reach a b d (partitionEqualLessFunc less d a b pivot).1 ∧
    a < (partitionEqualLessFunc less d a b pivot).2 ∧
    (partitionEqualLessFunc less d a b pivot).2 ≤ b ∧
    (∀ k, a ≤ k → k < (partitionEqualLessFunc less d a b pivot).2 →
      val rank (partitionEqualLessFunc less d a b pivot).1 k ≤ val rank d pivot) ∧
    (∀ k, (partitionEqualLessFunc less d a b pivot).2 ≤ k → k < b →
      val rank d pivot < val rank (partitionEqualLessFunc less d a b pivot).1 k) := by
  unfold partitionEqualLessFunc
  have hv0 := fun k => val_Swap rank d a pivot k (by omega) (by omega)
  have hr0 : Reach a b d (Swap d a pivot) :=
    Reach.swap d a pivot (Nat.le_refl a) hab hpa hpb (by omega) (by omega)
  have hlen0 : (Swap d a pivot).length = d.length := length_Swap d a pivot
  have hpv : val rank (Swap d a pivot) a = val rank d pivot := by
    rw [hv0 a]
    by_cases h : a = pivot
    · rw [if_pos h, h]
    · rw [if_neg h, if_pos rfl]
  generalize Swap d a pivot = d0 at hr0 hlen0 hpv
  obtain ⟨l1, l2, l3, l4, l5⟩ := partitionEqualLoop_spec rank less hless a b (b - a) d0 (a + 1)
    (b - 1) (by omega) (by omega) (by omega) (by omega) (by omega)
    (fun k h1 h2 => absurd h2 (by omega)) (fun k h1 h2 => absurd h2 (by omega))
  rw [hpv] at l4 l5
  refine ⟨hr0.trans (l1.mono (by omega) (Nat.le_refl b)), l2, l3, ?_, l5⟩
  intro k hk1 hk2
  by_cases hka : k = a
  · rw [hka, l1.val_outside rank a (Or.inl (Nat.lt_succ_self a)), hpv]
  · exact l4 k (by omega) hk2

end Ranked

theorem LowerBounded.reach (rank : α → Int) {a b : Nat} {d e : List α}
    (h : LowerBounded rank d a b) (hr : Reach a b d e) : LowerBounded rank e a b := by
  intro ha k hk1 hk2
  rw [hr.val_outside rank (a - 1) (Or.inl (by omega))]
  exact hr.forall_range rank (fun v => val rank d (a - 1) ≤ v) (h ha) k hk1 hk2

theorem breakIndex_lt (length random : Nat) (h : 0 < length) :
    breakIndex length random < length := by
  have hne : length ≠ 0 := by omega
  have hbits : bitsLen length = Nat.log2 length + 1 := by
    unfold bitsLen
    rw [if_neg hne]
  have h1 : 2 ^ (Nat.log2 length + 1) ≤ 2 * length := by
    have := Nat.log2_self_le hne
    rw [pow_succ]; omega
  have h2 : random % 2 ^ (Nat.log2 length + 1) < 2 ^ (Nat.log2 length + 1) :=
    Nat.mod_lt _ (by positivity)
  unfold breakIndex nextPowerOfTwo
  rw [hbits]
  dsimp only
  split <;> omega

theorem breakPatternsLessFunc_reach (d : List α) (a b : Nat) (hb : b ≤ d.length) :
    Reach a b d (breakPatternsLessFunc d a b) := by
  unfold breakPatternsLessFunc
  dsimp only
  by_cases h : b - a ≥ 8
  · rw [if_pos h]
    have hi := fun r => breakIndex_lt (b - a) r (by omega)
    have h1 := hi (xorshiftNext (b - a))
    have h2 := hi (xorshiftNext (xorshiftNext (b - a)))
    have h3 := hi (xorshiftNext (xorshiftNext (xorshiftNext (b - a))))
    have s1 : Reach a b d (Swap d (a + (b - a) / 4 * 2 - 1 - 1)
        (a + breakIndex (b - a) (xorshiftNext (b - a)))) :=
      Reach.swap d _ _ (by omega) (by omega) (by omega) (by omega) (by omega) (by omega)
    have s2 := Reach.swap (a := a) (b := b) (Swap d (a + (b - a) / 4 * 2 - 1 - 1)
        (a + breakIndex (b - a) (xorshiftNext (b - a)))) (a + (b - a) / 4 * 2 - 1)
        (a + breakIndex (b - a) (xorshiftNext (xorshiftNext (b - a))))
        (by omega) (by omega) (by omega) (by omega)
        (by rw [length_Swap]; omega) (by rw [length_Swap]; omega)
    have s3 := Reach.swap (a := a) (b := b) (Swap (Swap d (a + (b - a) / 4 * 2 - 1 - 1)
        (a + breakIndex (b - a) (xorshiftNext (b - a)))) (a + (b - a) / 4 * 2 - 1)
        (a + breakIndex (b - a) (xorshiftNext (xorshiftNext (b - a)))))
        (a + (b - a) / 4 * 2 - 1 + 1)
        (a + breakIndex (b - a) (xorshiftNext (xorshiftNext (xorshiftNext (b - a)))))
        (by omega) (by omega) (by omega) (by omega)
        (by rw [length_Swap, length_Swap]; omega) (by rw [length_Swap, length_Swap]; omega)
    exact (s1.trans s2).trans s3
  · rw [if_neg h]
    exact Reach.refl

theorem reverseLoop_reach (a b : Nat) (fuel : Nat) (d : List α) (i j : Nat) (hai : a ≤ i)
    (hjb : j < b) (hb : b ≤ d.length) : Reach a b d (reverseLoop fuel d i j) := by
  induction fuel generalizing d i j with
  | zero => exact Reach.refl
  | succ fuel ih =>
    unfold reverseLoop
    by_cases h : i < j
    · rw [if_pos h]
      exact (Reach.swap d i j hai (by omega) (by omega) hjb (by omega) (by omega)).trans
        (ih (Swap d i j) (i + 1) (j - 1) (by omega) (by omega) (by rw [length_Swap]; exact hb))
    · rw [if_neg h]
      exact Reach.refl

theorem reverseRangeLessFunc_reach (d : List α) (a b : Nat) (hab : a < b) (hb : b ≤ d.length) :
    Reach a b d (reverseRangeLessFunc d a b) :=
  reverseLoop_reach a b (b - a) d a (b - 1) (Nat.le_refl a) (by omega) hb

theorem order2LessFunc_fst (less : α → α → Bool) (d : List α) (x y s : Nat) :
    ((order2LessFunc less d x y s).1 = x ∧ (order2LessFunc less d x y s).2.1 = y) ∨
    ((order2LessFunc less d x y s).1 = y ∧ (order2LessFunc less d x y s).2.1 = x) := by
  unfold order2LessFunc
  split
  · exact Or.inr ⟨rfl, rfl⟩
  · exact Or.inl ⟨rfl, rfl⟩

theorem medianLessFunc_mem (less : α → α → Bool) (d : List α) (x y z s : Nat) :
    (medianLessFunc less d x y z s).1 = x ∨ (medianLessFunc less d x y z s).1 = y ∨
      (medianLessFunc less d x y z s).1 = z := by
  unfold medianLessFunc
  dsimp only
  have h1 := order2LessFunc_fst less d x y s
  generalize order2LessFunc less d x y s = s1 at h1
  have h2 := order2LessFunc_fst less d s1.2.1 z s1.2.2
  generalize order2LessFunc less d s1.2.1 z s1.2.2 = s2 at h2
  have h3 := order2LessFunc_fst less d s1.1 s2.1 s2.2.2
  generalize order2LessFunc less d s1.1 s2.1 s2.2.2 = s3 at h3
  rcases h1 with ⟨a1, b1⟩ | ⟨a1, b1⟩ <;> rcases h2 with ⟨a2, b2⟩ | ⟨a2, b2⟩ <;>
    rcases h3 with ⟨a3, b3⟩ | ⟨a3, b3⟩ <;> simp_all

theorem choosePivotLessFunc_mem (less : α → α → Bool) (d : List α) (a b : Nat)
    (h : 8 ≤ b - a) :
    a ≤ (choosePivotLessFunc less d a b).1 ∧ (choosePivotLessFunc less d a b).1 < b := by
  have key : ∀ r : Nat × Nat, (a ≤ r.1 ∧ r.1 < b) →
      a ≤ (if r.2 = 0 then (r.1, SortedHint.increasingHint)
        else if r.2 = 4 * 3 then (r.1, SortedHint.decreasingHint)
        else (r.1, SortedHint.unknownHint)).1 ∧
      (if r.2 = 0 then (r.1, SortedHint.increasingHint)
        else if r.2 = 4 * 3 then (r.1, SortedHint.decreasingHint)
        else (r.1, SortedHint.unknownHint)).1 < b := by
    intro r hr
    split
    · exact hr
    · split <;> exact hr
  unfold choosePivotLessFunc
  dsimp only
  apply key
  rw [if_pos h]
  by_cases h50 : b - a ≥ 50
  · rw [if_pos h50]
    unfold medianAdjacentLessFunc
    have m1 := medianLessFunc_mem less d (a + (b - a) / 4 * 1 - 1) (a + (b - a) / 4 * 1)
      (a + (b - a) / 4 * 1 + 1) 0
    generalize medianLessFunc less d (a + (b - a) / 4 * 1 - 1) (a + (b - a) / 4 * 1)
      (a + (b - a) / 4 * 1 + 1) 0 = r1 at m1
    have m2 := medianLessFunc_mem less d (a + (b - a) / 4 * 2 - 1) (a + (b - a) / 4 * 2)
      (a + (b - a) / 4 * 2 + 1) r1.2
    generalize medianLessFunc less d (a + (b - a) / 4 * 2 - 1) (a + (b - a) / 4 * 2)
      (a + (b - a) / 4 * 2 + 1) r1.2 = r2 at m2
    have m3 := medianLessFunc_mem less d (a + (b - a) / 4 * 3 - 1) (a + (b - a) / 4 * 3)
      (a + (b - a) / 4 * 3 + 1) r2.2
    generalize medianLessFunc less d (a + (b - a) / 4 * 3 - 1) (a + (b - a) / 4 * 3)
      (a + (b - a) / 4 * 3 + 1) r2.2 = r3 at m3
    have m4 := medianLessFunc_mem less d r1.1 r2.1 r3.1 r3.2
    generalize medianLessFunc less d r1.1 r2.1 r3.1 r3.2 = r4 at m4
    omega
  · rw [if_neg h50]
    have m := medianLessFunc_mem less d (a + (b - a) / 4 * 1) (a + (b - a) / 4 * 2)
      (a + (b - a) / 4 * 3) 0
    generalize medianLessFunc less d (a + (b - a) / 4 * 1) (a + (b - a) / 4 * 2)
      (a + (b - a) / 4 * 3) 0 = r at m
    omega

theorem SortedOn_of_adjacent (rank : α → Int) (d : List α) (a b : Nat)
    (h : ∀ k, a < k → k < b → val rank d (k - 1) ≤ val rank d k) : SortedOn rank d a b := by
  intro i j hai hij hjb
  obtain ⟨m, rfl⟩ : ∃ m, j = i + m := ⟨j - i, by omega⟩
  clear hij
  induction m with
  | zero => exact Int.le_refl _
  | succ m ih =>
    have h1 := ih (by omega)
    have h2 := h (i + (m + 1)) (by omega) hjb
    have e : i + (m + 1) - 1 = i + m := by omega
    rw [e] at h2
    omega

theorem shiftRight_reach (less : α → α → Bool) (r b : Nat) (fuel j : Nat) (d : List α) (hrj : r < j)
    (hb : b ≤ d.length) : Reach r b d (shiftRight less b fuel j d) := by
  induction fuel generalizing j d with
  | zero => exact Reach.refl
  | succ fuel ih =>
    unfold shiftRight
    by_cases hc : j < b ∧ Less less d j (j - 1) = true
    · rw [if_pos hc]
      exact (Reach.swap d j (j - 1) (by omega) hc.1 (by omega) (by omega) (by omega)
        (by omega)).trans (ih (j + 1) (Swap d j (j - 1)) (by omega)
          (by rw [length_Swap]; exact hb))
    · rw [if_neg hc]
      exact Reach.refl

section Ranked

variable (rank : α → Int) (less : α → α → Bool)
variable (hless : ∀ x y, less x y = decide (rank x < rank y))
include hless

theorem scanSorted_spec (d : List α) (b : Nat) (fuel i : Nat) (hfuel : b ≤ i + fuel)
    (hi1 : 1 ≤ i) (hib : i ≤ b) (hb : b ≤ d.length) :
    i ≤ scanSorted less d b fuel i ∧ scanSorted less d b fuel i ≤ b ∧
    (∀ k, i ≤ k → k < scanSorted less d b fuel i → val rank d (k - 1) ≤ val rank d k) ∧
    (scanSorted less d b fuel i < b →
      val rank d (scanSorted less d b fuel i) < val rank d (scanSorted less d b fuel i - 1)) := by
  induction fuel generalizing i with
  | zero =>
    refine ⟨Nat.le_refl i, hib, fun k h1 h2 => absurd h2 (by simp only [scanSorted]; omega), ?_⟩
    intro h
    simp only [scanSorted] at h
    omega
  | succ fuel ih =>
    unfold scanSorted
    by_cases hc : i < b ∧ Less less d i (i - 1) = false
    · rw [if_pos hc]
      have hle := (Less_false_iff rank less hless d i (i - 1) (by omega) (by omega)).mp hc.2
      obtain ⟨h1, h2, h3, h4⟩ := ih (i + 1) (by omega) (by omega) (by omega)
      refine ⟨by omega, h2, ?_, h4⟩
      intro k hk1 hk2
      by_cases hki : k = i
      · rw [hki]; exact hle
      · exact h3 k (by omega) hk2
    · rw [if_neg hc]
      refine ⟨Nat.le_refl i, hib, fun k h1 h2 => absurd h2 (by omega), ?_⟩
      intro hlt
      have hl : Less less d i (i - 1) = true := by
        cases hl : Less less d i (i - 1) with
        | true => rfl
        | false => exact absurd ⟨hlt, hl⟩ hc
      exact (Less_iff rank less hless d i (i - 1) (by omega) (by omega)).mp hl

/-- Below a lower-bounded range the left shift stops at `a` by itself, so it is
the inner loop of insertion sort. -/
theorem shiftLeft_eq_insertionInner (a b : Nat) (j : Nat) (d : List α) (haj : a ≤ j)
    (hjb : j < b) (hb : b ≤ d.length) (hlow : LowerBounded rank d a b) :
    shiftLeft less j d = insertionInner less a j d := by
  induction j generalizing d with
  | zero => rfl
  | succ j ih =>
    unfold shiftLeft insertionInner
    by_cases haj1 : a < j + 1
    · by_cases hl : Less less d (j + 1) j = true
      · rw [if_pos hl, if_pos ⟨haj1, hl⟩]
        exact ih (Swap d (j + 1) j) (by omega) (by omega) (by rw [length_Swap]; exact hb)
          (hlow.reach rank (Reach.swap d (j + 1) j (by omega) hjb (by omega) (by omega)
            (by omega) (by omega)))
      · simp only [hl, and_false, if_false, Bool.false_eq_true]
    · have h0 := hlow (by omega) a (Nat.le_refl a) (by omega)
      have hnl : Less less d (j + 1) j = false := by
        rw [Less_false_iff rank less hless d (j + 1) j (by omega) (by omega)]
        have e : a - 1 = j := by omega
        have e' : a = j + 1 := by omega
        rw [e, e'] at h0
        exact h0
      simp only [hnl, haj1, false_and, if_false, Bool.false_eq_true]

/-- The rounds of `partialInsertionSort_func` reorder the range only and report `true`
only for a sorted range. -/
theorem partialInsertionSteps_spec (a b : Nat) (steps i : Nat) (d : List α) (hai : a < i)
    (hib : i ≤ b) (hb : b ≤ d.length) (hs : SortedOn rank d a i)
    (hlow : LowerBounded rank d a b) :
    Reach a b d (partialInsertionSteps less a b steps i d).1 ∧
    ((partialInsertionSteps less a b steps i d).2 = true →
      SortedOn rank (partialInsertionSteps less a b steps i d).1 a b) := by
  induction steps generalizing i d with
  | zero => exact ⟨Reach.refl, fun h => absurd h (by simp [partialInsertionSteps])⟩
  | succ steps ih =>
    unfold partialInsertionSteps
    dsimp only
    obtain ⟨u1, u2, u3, u4⟩ := scanSorted_spec rank less hless d b (b - i) i (by omega)
      (by omega) hib hb
    generalize scanSorted less d b (b - i) i = r at u1 u2 u3 u4
    have hsr : SortedOn rank d a r := by
      apply SortedOn_of_adjacent
      intro k hk1 hk2
      by_cases hki : k < i
      · have := hs (k - 1) k (by omega) (by omega) hki
        exact this
      · exact u3 k (by omega) hk2
    by_cases hrb : r = b
    · rw [if_pos hrb]
      refine ⟨Reach.refl, fun _ => ?_⟩
      rw [hrb] at hsr
      exact hsr
    · rw [if_neg hrb]
      by_cases h50 : b - a < 50
      · rw [if_pos h50]
        exact ⟨Reach.refl, fun h => absurd h (by simp)⟩
      · rw [if_neg h50]
        have hv := fun k => val_Swap rank d r (r - 1) k (by omega) (by omega)
        have hr1 : Reach a b d (Swap d r (r - 1)) :=
          Reach.swap d r (r - 1) (by omega) (by omega) (by omega) (by omega) (by omega)
            (by omega)
        have hlen1 : (Swap d r (r - 1)).length = d.length := length_Swap _ _ _
        have hlow1 := hlow.reach rank hr1
        have hs1 : ∀ p q, a ≤ p → p < q → q ≤ r - 1 → p ≠ r - 1 → q ≠ r - 1 →
            val rank (Swap d r (r - 1)) p ≤ val rank (Swap d r (r - 1)) q := by
          intro p q hp hpq hq hp' hq'
          rw [hv p, hv q, if_neg hp', if_neg hq', if_neg (by omega), if_neg (by omega)]
          exact hsr p q hp (by omega) (by omega)
        generalize Swap d r (r - 1) = d1 at hr1 hlen1 hlow1 hs1
        have h2 : Reach a b d1 (if r - a ≥ 2 then shiftLeft less (r - 1) d1 else d1) ∧
            SortedOn rank (if r - a ≥ 2 then shiftLeft less (r - 1) d1 else d1) a r := by
          by_cases hra : r - a ≥ 2
          · rw [if_pos hra,
              shiftLeft_eq_insertionInner rank less hless a b (r - 1) d1 (by omega) (by omega)
                (by omega) hlow1]
            have := insertionInner_spec rank less hless a (r - 1) (r - 1) d1 (by omega)
              (Nat.le_refl _) (by omega) hs1 (fun k h1 h2 => absurd h1 (by omega))
            have e : r - 1 + 1 = r := by omega
            rw [e] at this
            exact ⟨this.1.mono (Nat.le_refl a) (by omega), this.2⟩
          · rw [if_neg hra]
            exact ⟨Reach.refl, SortedOn_of_le_one rank d1 a r (by omega)⟩
        generalize (if r - a ≥ 2 then shiftLeft less (r - 1) d1 else d1) = d2 at h2
        have hlen2 : d2.length = d1.length := h2.1.length_eq
        have h3 : Reach r b d2
            (if b - r ≥ 2 then shiftRight less b (b - (r + 1)) (r + 1) d2 else d2) := by
          by_cases hbr : b - r ≥ 2
          · rw [if_pos hbr]
            exact shiftRight_reach less r b (b - (r + 1)) (r + 1) d2 (by omega)
              (by omega)
          · rw [if_neg hbr]
            exact Reach.refl
        generalize (if b - r ≥ 2 then shiftRight less b (b - (r + 1)) (r + 1) d2 else d2) = d3
          at h3
        have hr3 : Reach a b d d3 := (hr1.trans h2.1).trans (h3.mono (by omega) (Nat.le_refl b))
        have hs3 : SortedOn rank d3 a r := by
          intro p q hp hpq hq
          rw [h3.val_outside rank p (Or.inl (by omega)), h3.val_outside rank q (Or.inl hq)]
          exact h2.2 p q hp hpq hq
        have hrec := ih r d3 (by omega) (by omega) (by rw [hr3.length_eq]; exact hb) hs3
          (hlow.reach rank hr3)
        exact ⟨hr3.trans hrec.1, hrec.2⟩

/-- Function `partialInsertionSort_func` reorders the range only and reports `true` only
for a sorted range. -/
theorem partialInsertionSortLessFunc_spec (d : List α) (a b : Nat) (hab : a < b)
    (hb : b ≤ d.length) (hlow : LowerBounded rank d a b) :
    Reach a b d (partialInsertionSortLessFunc less d a b).1 ∧
    ((partialInsertionSortLessFunc less d a b).2 = true →
      SortedOn rank (partialInsertionSortLessFunc less d a b).1 a b) :=
  partialInsertionSteps_spec rank less hless a b 5 (a + 1) d (Nat.lt_succ_self a) hab hb
    (SortedOn_of_le_one rank d a (a + 1) (Nat.le_refl _)) hlow

end Ranked

theorem HeapFrom.root_max (rank : α → Int) {d : List α} {first n : Nat}
    (h : HeapFrom rank d first 0 n) (x : Nat) (hx : x < n) :
    val rank d (first + x) ≤ val rank d first := by
  induction x using Nat.strong_induction_on with
  | _ x ih =>
    by_cases h0 : x = 0
    · rw [h0]; exact Int.le_refl _
    · have h1 := h ((x - 1) / 2) x (Nat.zero_le _) (by omega) hx
      have h2 := ih ((x - 1) / 2) (by omega) (by omega)
      omega

section Ranked

variable (rank : α → Int) (less : α → α → Bool)
variable (hless : ∀ x y, less x y = decide (rank x < rank y))
include hless

/-- Sifting down restores the heap below a node that alone may violate it. -/
theorem siftDownLessFunc_spec (first lo hi : Nat) (fuel cur : Nat) (d : List α)
    (hlen : first + hi ≤ d.length) (hlo : lo ≤ cur) (hfuel : hi ≤ cur + fuel)
    (hheap : HeapExcept rank d first lo hi cur) :
    Reach (first + lo) (first + hi) d (siftDownLessFunc less hi first fuel cur d) ∧
      HeapFrom rank (siftDownLessFunc less hi first fuel cur d) first lo hi := by
  induction fuel generalizing cur d with
  | zero =>
    refine ⟨Reach.refl, ?_⟩
    intro r c hr hc hch
    by_cases hrc : r = cur
    · omega
    · exact hheap.1 r c hr hrc hc hch
  | succ fuel ih =>
    unfold siftDownLessFunc
    by_cases hleaf : 2 * cur + 1 ≥ hi
    · rw [if_pos hleaf]
      refine ⟨Reach.refl, ?_⟩
      intro r c hr hc hch
      by_cases hrc : r = cur
      · omega
      · exact hheap.1 r c hr hrc hc hch
    · rw [if_neg hleaf]
      dsimp only
      have hchild : ∃ ch, (if 2 * cur + 2 < hi ∧
            Less less d (first + (2 * cur + 1)) (first + (2 * cur + 2)) = true
          then 2 * cur + 2 else 2 * cur + 1) = ch ∧ (ch = 2 * cur + 1 ∨ ch = 2 * cur + 2) ∧
          ch < hi ∧ ∀ c, (c = 2 * cur + 1 ∨ c = 2 * cur + 2) → c < hi →
            val rank d (first + c) ≤ val rank d (first + ch) := by
        by_cases hc : 2 * cur + 2 < hi ∧
            Less less d (first + (2 * cur + 1)) (first + (2 * cur + 2)) = true
        · rw [if_pos hc]
          have hlt := (Less_iff rank less hless d _ _ (by omega) (by omega)).mp hc.2
          refine ⟨_, rfl, Or.inr rfl, hc.1, ?_⟩
          intro c hcc hch
          rcases hcc with h | h
          · rw [h]; omega
          · rw [h]
        · rw [if_neg hc]
          refine ⟨_, rfl, Or.inl rfl, by omega, ?_⟩
          intro c hcc hch
          rcases hcc with h | h
          · rw [h]
          · rw [h]
            have hnl : Less less d (first + (2 * cur + 1)) (first + (2 * cur + 2)) = false := by
              cases hl : Less less d (first + (2 * cur + 1)) (first + (2 * cur + 2)) with
              | false => rfl
              | true => exact absurd ⟨by omega, hl⟩ hc
            exact (Less_false_iff rank less hless d _ _ (by omega) (by omega)).mp hnl
      obtain ⟨ch, hche, hchc, hchh, hmax⟩ := hchild
      rw [hche]
      by_cases hl : Less less d (first + cur) (first + ch) = true
      · rw [if_pos hl]
        have hlt := (Less_iff rank less hless d _ _ (by omega) (by omega)).mp hl
        have hi1 : first + cur < d.length := by omega
        have hi2 : first + ch < d.length := by omega
        have hrec := ih ch (Swap d (first + cur) (first + ch)) (by rw [length_Swap]; exact hlen)
          (by omega) (by omega)
          (by
            constructor
            · intro r c hr hrch hc hch
              by_cases hrcur : r = cur
              · rw [hrcur, val_Swap_left rank d _ _ hi1 hi2]
                by_cases hcch : c = ch
                · rw [hcch, val_Swap_right rank d _ _ hi1 hi2]; omega
                · rw [val_Swap_other rank d _ _ _ hi1 hi2 (by omega) (by omega)]
                  exact hmax c (by omega) hch
              · rw [val_Swap_other rank d _ _ (first + r) hi1 hi2 (by omega) (by omega)]
                by_cases hccur : c = cur
                · rw [hccur, val_Swap_left rank d _ _ hi1 hi2]
                  exact hheap.2 ch r hchc hchh hr (by omega)
                · rw [val_Swap_other rank d _ _ _ hi1 hi2 (by omega) (by omega)]
                  exact hheap.1 r c hr hrcur hc hch
            · intro c p hc hch hp hpc
              have hpcur : p = cur := by omega
              rw [hpcur, val_Swap_left rank d _ _ hi1 hi2,
                val_Swap_other rank d _ _ _ hi1 hi2 (by omega) (by omega)]
              exact hheap.1 ch c (by omega) (by omega) hc hch)
        exact ⟨(Reach.swap d (first + cur) (first + ch) (by omega) (by omega) (by omega)
          (by omega) (by omega) (by omega)).trans hrec.1, hrec.2⟩
      · rw [if_neg hl]
        refine ⟨Reach.refl, ?_⟩
        have hnl : Less less d (first + cur) (first + ch) = false := by
          cases h : Less less d (first + cur) (first + ch) with
          | false => rfl
          | true => exact absurd h hl
        have hle := (Less_false_iff rank less hless d _ _ (by omega) (by omega)).mp hnl
        intro r c hr hc hch
        by_cases hrc : r = cur
        · have := hmax c (by omega) hch
          rw [hrc]; omega
        · exact hheap.1 r c hr hrc hc hch

/-- The first loop of heap sort turns the range into a heap. -/
theorem buildHeap_spec (first hi : Nat) (n : Nat) (d : List α) (hlen : first + hi ≤ d.length)
    (hheap : HeapFrom rank d first n hi) :
    Reach first (first + hi) d
      ((List.range n).reverse.foldl (fun e i => siftDownLessFunc less hi first hi i e) d) ∧
    HeapFrom rank
      ((List.range n).reverse.foldl (fun e i => siftDownLessFunc less hi first hi i e) d)
      first 0 hi := by
  induction n generalizing d with
  | zero => exact ⟨Reach.refl, hheap⟩
  | succ n ih =>
    rw [List.range_succ, List.reverse_append, List.reverse_singleton, List.singleton_append,
      List.foldl_cons]
    have h1 := siftDownLessFunc_spec rank less hless first n hi hi n d hlen (Nat.le_refl n)
      (by omega)
      ⟨fun r c hr hrn hc hch => hheap r c (by omega) hc hch,
        fun c p hc hch hp hpc => absurd hpc (by omega)⟩
    have h2 := ih (siftDownLessFunc less hi first hi n d) (by rw [h1.1.length_eq]; exact hlen)
      h1.2
    exact ⟨(h1.1.mono (by omega) (Nat.le_refl _)).trans h2.1, h2.2⟩

/-- The second loop of heap sort moves the maxima to the end one by one. -/
theorem popHeap_spec (first hi : Nat) (n : Nat) (d : List α) (hn : n ≤ hi)
    (hlen : first + hi ≤ d.length) (hheap : HeapFrom rank d first 0 n)
    (hs : SortedOn rank d (first + n) (first + hi))
    (hsep : ∀ x y, x < n → n ≤ y → y < hi → val rank d (first + x) ≤ val rank d (first + y)) :
    Reach first (first + hi) d
      ((List.range n).reverse.foldl
        (fun e i => siftDownLessFunc less i first i 0 (Swap e first (first + i))) d) ∧
    SortedOn rank
      ((List.range n).reverse.foldl
        (fun e i => siftDownLessFunc less i first i 0 (Swap e first (first + i))) d)
      first (first + hi) := by
  induction n generalizing d with
  | zero => exact ⟨Reach.refl, hs⟩
  | succ n ih =>
    rw [List.range_succ, List.reverse_append, List.reverse_singleton, List.singleton_append,
      List.foldl_cons]
    have hi1 : first < d.length := by omega
    have hi2 : first + n < d.length := by omega
    have hmax := hheap.root_max rank
    have hr1 : Reach first (first + hi) d (Swap d first (first + n)) :=
      Reach.swap d first (first + n) (Nat.le_refl _) (by omega) (by omega) (by omega) hi1 hi2
    have hv1 : ∀ k, k ≠ first → k ≠ first + n →
        val rank (Swap d first (first + n)) k = val rank d k :=
      fun k h1 h2 => val_Swap_other rank d _ _ k hi1 hi2 h1 h2
    have hvn : val rank (Swap d first (first + n)) (first + n) = val rank d first :=
      val_Swap_right rank d _ _ hi1 hi2
    have hv0 : val rank (Swap d first (first + n)) first = val rank d (first + n) :=
      val_Swap_left rank d _ _ hi1 hi2
    have hle1 : ∀ k, first ≤ k → k < first + n →
        val rank (Swap d first (first + n)) k ≤ val rank d first := by
      intro k hk1 hk2
      by_cases hk : k = first
      · rw [hk, hv0]
        exact hmax n (by omega)
      · rw [hv1 k hk (by omega)]
        have := hmax (k - first) (by omega)
        have e : first + (k - first) = k := by omega
        rw [e] at this
        exact this
    have hex : HeapExcept rank (Swap d first (first + n)) first 0 n 0 := by
      constructor
      · intro r c hr hr0 hc hch
        rw [hv1 (first + c) (by omega) (by omega), hv1 (first + r) (by omega) (by omega)]
        exact hheap r c hr hc (by omega)
      · intro c p hc hch hp hpc
        omega
    have hlen1 : (Swap d first (first + n)).length = d.length := length_Swap _ _ _
    have hs1 := siftDownLessFunc_spec rank less hless first 0 n n 0
      (Swap d first (first + n)) (by omega) (Nat.le_refl 0) (by omega) hex
    rw [Nat.add_zero] at hs1
    have hout : ∀ k, first + n ≤ k →
        val rank (siftDownLessFunc less n first n 0 (Swap d first (first + n))) k =
          val rank (Swap d first (first + n)) k :=
      fun k hk => hs1.1.val_outside rank k (Or.inr hk)
    have hrec := ih (siftDownLessFunc less n first n 0 (Swap d first (first + n))) (by omega)
      (by rw [hs1.1.length_eq, hlen1]; exact hlen) hs1.2
      (by
        intro p q hp hpq hq
        rw [hout p (by omega), hout q (by omega)]
        by_cases hpn : p = first + n
        · rw [hpn, hvn]
          by_cases hqn : q = first + n
          · rw [hqn, hvn]
          · rw [hv1 q (by omega) hqn]
            have := hsep 0 (q - first) (by omega) (by omega) (by omega)
            have e : first + (q - first) = q := by omega
            rw [e, Nat.add_zero] at this
            exact this
        · rw [hv1 p (by omega) hpn, hv1 q (by omega) (by omega)]
          exact hs p q (by omega) hpq hq)
      (by
        intro x y hx hy hyh
        rw [hout (first + y) (by omega)]
        by_cases hyn : y = n
        · rw [hyn, hvn]
          exact hs1.1.forall_range rank (fun v => v ≤ val rank d first) hle1 (first + x)
            (by omega) (by omega)
        · rw [hv1 (first + y) (by omega) (by omega)]
          refine hs1.1.forall_range rank (fun v => v ≤ val rank d (first + y)) ?_ (first + x)
            (by omega) (by omega)
          intro k hk1 hk2
          by_cases hk : k = first
          · rw [hk, hv0]
            exact hsep n y (by omega) (by omega) hyh
          · rw [hv1 k hk (by omega)]
            have := hsep (k - first) y (by omega) (by omega) hyh
            have e : first + (k - first) = k := by omega
            rw [e] at this
            exact this)
    exact ⟨(hr1.trans (hs1.1.mono (Nat.le_refl _) (by omega))).trans hrec.1, hrec.2⟩

/-- Function `heapSort_func` sorts the range by swaps inside it. -/
theorem heapSortLessFunc_spec (d : List α) (a b : Nat) (hab : a ≤ b) (hb : b ≤ d.length) :
    Reach a b d (heapSortLessFunc less d a b) ∧
      SortedOn rank (heapSortLessFunc less d a b) a b := by
  unfold heapSortLessFunc
  dsimp only
  have h1 := buildHeap_spec rank less hless a (b - a) ((b - a - 1) / 2 + 1) d (by omega)
    (fun r c hr hc hch => absurd hch (by omega))
  have h2 := popHeap_spec rank less hless a (b - a) (b - a)
    ((List.range ((b - a - 1) / 2 + 1)).reverse.foldl
      (fun e i => siftDownLessFunc less (b - a) a (b - a) i e) d)
    (Nat.le_refl _) (by rw [h1.1.length_eq]; omega) h1.2
    (fun i j h1 h2 h3 => absurd h3 (by omega))
    (fun x y hx hy hyh => absurd hyh (by omega))
  have e : a + (b - a) = b := by omega
  rw [e] at h1 h2
  exact ⟨h1.1.trans h2.1, h2.2⟩

end Ranked

theorem SortedOn_join (rank : α → Int) (d : List α) (a mid b : Nat) (pv : Int)
    (h1 : SortedOn rank d a mid) (h2 : SortedOn rank d (mid + 1) b)
    (hm : val rank d mid = pv) (hl : ∀ k, a ≤ k → k < mid → val rank d k ≤ pv)
    (hr : ∀ k, mid < k → k < b → pv ≤ val rank d k) : SortedOn rank d a b := by
  intro i j hai hij hjb
  by_cases hi : i < mid
  · by_cases hj : j < mid
    · exact h1 i j hai hij hj
    · have := hl i hai hi
      by_cases hjm : j = mid
      · rw [hjm, hm]; exact this
      · have := hr j (by omega) hjb
        omega
  · by_cases him : i = mid
    · by_cases hjm : j = mid
      · rw [him, hjm]
      · have := hr j (by omega) hjb
        rw [him, hm]; exact this
    · exact h2 i j (by omega) hij hjb

theorem SortedOn_const_join (rank : α → Int) (d : List α) (a m b : Nat) (pv : Int)
    (hc : ∀ k, a ≤ k → k < m → val rank d k = pv) (hr : ∀ k, m ≤ k → k < b → pv ≤ val rank d k)
    (h2 : SortedOn rank d m b) : SortedOn rank d a b := by
  intro i j hai hij hjb
  by_cases hi : i < m
  · rw [hc i hai hi]
    by_cases hj : j < m
    · rw [hc j (by omega) hj]
    · exact hr j (by omega) hjb
  · exact h2 i j (by omega) hij hjb

theorem LowerBounded.sub (rank : α → Int) {d : List α} {a b b' : Nat}
    (h : LowerBounded rank d a b) (hb : b' ≤ b) : LowerBounded rank d a b' :=
  fun ha k hk1 hk2 => h ha k hk1 (by omega)

section Ranked

variable (rank : α → Int) (less : α → α → Bool)
variable (hless : ∀ x y, less x y = decide (rank x < rank y))
include hless

/-- Function `pdqsort_func` sorts the range by swaps inside it, whatever the limit and the
flags it is entered with. -/
theorem pdqsortLessFunc_spec (fuel : Nat) (d : List α) (a b limit : Nat) (wb wp : Bool)
    (hfuel : b - a < fuel) (hab : a ≤ b) (hb : b ≤ d.length)
    (hlow : LowerBounded rank d a b) :
    Reach a b d (pdqsortLessFunc less fuel d a b limit wb wp) ∧
      SortedOn rank (pdqsortLessFunc less fuel d a b limit wb wp) a b := by
  induction fuel generalizing d a b limit wb wp with
  | zero => exact absurd hfuel (Nat.not_lt_zero _)
  | succ fuel ih =>
    unfold pdqsortLessFunc
    dsimp only
    by_cases h12 : b - a ≤ 12
    · rw [if_pos h12]
      exact insertionSortLessFunc_spec rank less hless d a b hb
    rw [if_neg h12]
    by_cases hlim : limit = 0
    · rw [if_pos hlim]
      exact heapSortLessFunc_spec rank less hless d a b hab hb
    rw [if_neg hlim]
    have hd1 : Reach a b d (if wb = true then d else breakPatternsLessFunc d a b) := by
      split
      · exact Reach.refl
      · exact breakPatternsLessFunc_reach d a b hb
    generalize (if wb = true then d else breakPatternsLessFunc d a b) = d1 at hd1 ⊢
    generalize (if wb = true then limit else limit - 1) = limit1
    have hlen1 : d1.length = d.length := hd1.length_eq
    have hc := choosePivotLessFunc_mem less d1 a b (by omega)
    generalize choosePivotLessFunc less d1 a b = c at hc ⊢
    have hd2 : Reach a b d1
        (if c.2 = SortedHint.decreasingHint then reverseRangeLessFunc d1 a b else d1) := by
      split
      · exact reverseRangeLessFunc_reach d1 a b (by omega) (by omega)
      · exact Reach.refl
    generalize (if c.2 = SortedHint.decreasingHint then reverseRangeLessFunc d1 a b else d1)
      = d2 at hd2 ⊢
    have hlen2 : d2.length = d1.length := hd2.length_eq
    have hpiv : a ≤ (if c.2 = SortedHint.decreasingHint then b - 1 - (c.1 - a) else c.1) ∧
        (if c.2 = SortedHint.decreasingHint then b - 1 - (c.1 - a) else c.1) < b := by
      split <;> omega
    generalize (if c.2 = SortedHint.decreasingHint then b - 1 - (c.1 - a) else c.1)
      = pivot at hpiv ⊢
    generalize (if c.2 = SortedHint.decreasingHint then SortedHint.increasingHint else c.2)
      = hint
    have hlow2 : LowerBounded rank d2 a b := hlow.reach rank (hd1.trans hd2)
    have hp : Reach a b d2
          (if wb = true ∧ wp = true ∧ hint = SortedHint.increasingHint
            then partialInsertionSortLessFunc less d2 a b else (d2, false)).1 ∧
        ((if wb = true ∧ wp = true ∧ hint = SortedHint.increasingHint
            then partialInsertionSortLessFunc less d2 a b else (d2, false)).2 = true →
          SortedOn rank (if wb = true ∧ wp = true ∧ hint = SortedHint.increasingHint
            then partialInsertionSortLessFunc less d2 a b else (d2, false)).1 a b) := by
      split
      · exact partialInsertionSortLessFunc_spec rank less hless d2 a b (by omega) (by omega)
          hlow2
      · exact ⟨Reach.refl, fun h => absurd h (by simp)⟩
    generalize (if wb = true ∧ wp = true ∧ hint = SortedHint.increasingHint
      then partialInsertionSortLessFunc less d2 a b else (d2, false)) = p at hp ⊢
    have hr3 : Reach a b d p.1 := (hd1.trans hd2).trans hp.1
    have hlen3 : p.1.length = d.length := hr3.length_eq
    have hlow3 : LowerBounded rank p.1 a b := hlow.reach rank hr3
    by_cases hp2 : p.2 = true
    · rw [if_pos hp2]
      exact ⟨hr3, hp.2 hp2⟩
    rw [if_neg hp2]
    by_cases heq : 0 < a ∧ Less less p.1 (a - 1) pivot = false
    · rw [if_pos heq]
      have hle := (Less_false_iff rank less hless p.1 (a - 1) pivot (by omega) (by omega)).mp
        heq.2
      obtain ⟨e1, e2, e3, e4, e5⟩ := partitionEqualLessFunc_spec rank less hless p.1 a b pivot
        (by omega) (by omega) hpiv.1 hpiv.2
      generalize partitionEqualLessFunc less p.1 a b pivot = e at e1 e2 e3 e4 e5 ⊢
      have hlowe : LowerBounded rank e.1 a b := hlow3.reach rank e1
      have hva : val rank e.1 (a - 1) = val rank p.1 (a - 1) :=
        e1.val_outside rank (a - 1) (Or.inl (by omega))
      have hconst : ∀ k, a ≤ k → k < e.2 → val rank e.1 k = val rank p.1 pivot := by
        intro k hk1 hk2
        have h1 := e4 k hk1 hk2
        have h2 := hlowe heq.1 k hk1 (by omega)
        omega
      have hrec := ih e.1 e.2 b limit1 wb wp (by omega) e3 (by rw [e1.length_eq]; omega)
        (by
          intro _ k hk1 hk2
          rw [hconst (e.2 - 1) (by omega) (by omega)]
          exact Int.le_of_lt (e5 k hk1 hk2))
      refine ⟨hr3.trans (e1.trans (hrec.1.mono (by omega) (Nat.le_refl b))), ?_⟩
      apply SortedOn_const_join rank _ a e.2 b (val rank p.1 pivot)
      · intro k hk1 hk2
        rw [hrec.1.val_outside rank k (Or.inl hk2)]
        exact hconst k hk1 hk2
      · intro k hk1 hk2
        exact Int.le_of_lt (hrec.1.forall_range rank (fun v => val rank p.1 pivot < v) e5 k
          hk1 hk2)
      · exact hrec.2
    rw [if_neg heq]
    obtain ⟨q1, q2, q3, q4, q5, q6⟩ := partitionLessFunc_spec rank less hless p.1 a b pivot
      (by omega) (by omega) hpiv.1 hpiv.2
    generalize partitionLessFunc less p.1 a b pivot = q at q1 q2 q3 q4 q5 q6 ⊢
    have hlenq : q.1.length = d.length := by rw [q1.length_eq, hlen3]
    have hlowq : LowerBounded rank q.1 a b := hlow3.reach rank q1
    by_cases hside : q.2.1 - a < b - q.2.1
    · rw [if_pos hside]
      have hA := ih q.1 a q.2.1 limit1 true true (by omega) q2 (by omega)
        (hlowq.sub rank (by omega))
      generalize pdqsortLessFunc less fuel q.1 a q.2.1 limit1 true true = r1 at hA ⊢
      have hm1 : val rank r1 q.2.1 = val rank p.1 pivot := by
        rw [hA.1.val_outside rank q.2.1 (Or.inr (Nat.le_refl _)), q4]
      have hB := ih r1 (q.2.1 + 1) b limit1 (decide (q.2.1 - a ≥ (b - a) / 8)) q.2.2 (by omega)
        (by omega) (by rw [hA.1.length_eq]; omega)
        (by
          intro _ k hk1 hk2
          rw [Nat.add_sub_cancel, hm1, hA.1.val_outside rank k (Or.inr (by omega))]
          exact q6 k (by omega) hk2)
      generalize pdqsortLessFunc less fuel r1 (q.2.1 + 1) b limit1
        (decide (q.2.1 - a ≥ (b - a) / 8)) q.2.2 = r2 at hB ⊢
      refine ⟨hr3.trans (q1.trans ((hA.1.mono (Nat.le_refl a) (by omega)).trans
        (hB.1.mono (by omega) (Nat.le_refl b)))), ?_⟩
      apply SortedOn_join rank r2 a q.2.1 b (val rank p.1 pivot)
      · intro i j hi hij hj
        rw [hB.1.val_outside rank i (Or.inl (by omega)),
          hB.1.val_outside rank j (Or.inl (by omega))]
        exact hA.2 i j hi hij hj
      · exact hB.2
      · rw [hB.1.val_outside rank q.2.1 (Or.inl (by omega))]
        exact hm1
      · intro k hk1 hk2
        rw [hB.1.val_outside rank k (Or.inl (by omega))]
        exact Int.le_of_lt (hA.1.forall_range rank (fun v => v < val rank p.1 pivot) q5 k
          hk1 hk2)
      · intro k hk1 hk2
        refine hB.1.forall_range rank (fun v => val rank p.1 pivot ≤ v) ?_ k (by omega) hk2
        intro m hm1' hm2
        rw [hA.1.val_outside rank m (Or.inr (by omega))]
        exact q6 m (by omega) hm2
    · rw [if_neg hside]
      have hA := ih q.1 (q.2.1 + 1) b limit1 true true (by omega) (by omega) (by omega)
        (by
          intro _ k hk1 hk2
          rw [Nat.add_sub_cancel, q4]
          exact q6 k (by omega) hk2)
      generalize pdqsortLessFunc less fuel q.1 (q.2.1 + 1) b limit1 true true = r1 at hA ⊢
      have hm1 : val rank r1 q.2.1 = val rank p.1 pivot := by
        rw [hA.1.val_outside rank q.2.1 (Or.inl (by omega)), q4]
      have hB := ih r1 a q.2.1 limit1 (decide (b - q.2.1 ≥ (b - a) / 8)) q.2.2 (by omega)
        q2 (by rw [hA.1.length_eq]; omega)
        (by
          intro ha k hk1 hk2
          rw [hA.1.val_outside rank k (Or.inl (by omega)),
            hA.1.val_outside rank (a - 1) (Or.inl (by omega))]
          exact hlowq ha k hk1 (by omega))
      generalize pdqsortLessFunc less fuel r1 a q.2.1 limit1
        (decide (b - q.2.1 ≥ (b - a) / 8)) q.2.2 = r2 at hB ⊢
      refine ⟨hr3.trans (q1.trans ((hA.1.mono (by omega) (Nat.le_refl b)).trans
        (hB.1.mono (Nat.le_refl a) (by omega)))), ?_⟩
      apply SortedOn_join rank r2 a q.2.1 b (val rank p.1 pivot)
      · exact hB.2
      · intro i j hi hij hj
        rw [hB.1.val_outside rank i (Or.inr (by omega)),
          hB.1.val_outside rank j (Or.inr (by omega))]
        exact hA.2 i j hi hij hj
      · rw [hB.1.val_outside rank q.2.1 (Or.inr (Nat.le_refl _))]
        exact hm1
      · intro k hk1 hk2
        refine Int.le_of_lt (hB.1.forall_range rank (fun v => v < val rank p.1 pivot) ?_ k
          hk1 hk2)
        intro m hm1' hm2
        rw [hA.1.val_outside rank m (Or.inl (by omega))]
        exact q5 m hm1' hm2
      · intro k hk1 hk2
        rw [hB.1.val_outside rank k (Or.inr (by omega))]
        exact hA.1.forall_range rank (fun v => val rank p.1 pivot ≤ v)
          (fun m h1 h2 => q6 m (by omega) h2) k (by omega) hk2

end Ranked

theorem val_eq_getElem (rank : α → Int) (d : List α) (i : Nat) (h : i < d.length) :
    val rank d i = rank d[i] := by
  unfold val
  rw [List.getElem?_eq_getElem h]
  rfl

theorem SortedOn.pairwise (rank : α → Int) {d : List α} (h : SortedOn rank d 0 d.length) :
    d.Pairwise (fun x y => rank x ≤ rank y) := by
  rw [List.pairwise_iff_getElem]
  intro i j hi hj hij
  have := h i j (Nat.zero_le i) (Nat.le_of_lt hij) hj
  rw [val_eq_getElem rank d i hi, val_eq_getElem rank d j hj] at this
  exact this

theorem Swap_cons_succ (x : α) (xs : List α) (i j : Nat) :
    Swap (x :: xs) (i + 1) (j + 1) = x :: Swap xs i j := by
  unfold Swap
  simp only [List.getElem?_cons_succ]
  cases xs[i]? <;> cases xs[j]? <;> simp

theorem val_cons_succ (rank : α → Int) (x : α) (xs : List α) (i : Nat) :
    val rank (x :: xs) (i + 1) = val rank xs i := by
  unfold val
  simp only [List.getElem?_cons_succ]

/-- Swapping two neighbours of different rank keeps, for every rank, the
elements of that rank in their order. -/
theorem Swap_adjacent_filter (rank : α → Int) (d : List α) (j : Nat) (hj : j + 1 < d.length)
    (hne : val rank d (j + 1) ≠ val rank d j) (c : Int) :
    (Swap d (j + 1) j).filter (fun x => decide (rank x = c)) =
      d.filter (fun x => decide (rank x = c)) := by
  induction d generalizing j with
  | nil => exact absurd hj (Nat.not_lt_zero _)
  | cons x xs ih =>
    cases j with
    | zero =>
      cases xs with
      | nil => exact absurd hj (by simp)
      | cons y ys =>
        have hxy : rank y ≠ rank x := by
          simpa [val] using hne
        have hs : Swap (x :: y :: ys) 1 0 = y :: x :: ys := by
          simp [Swap]
        rw [hs]
        by_cases hx : rank x = c
        · have hy : rank y ≠ c := fun h => hxy (h.trans hx.symm)
          simp [List.filter_cons, hx, hy]
        · simp [List.filter_cons, hx]
    | succ j =>
      rw [Swap_cons_succ, List.filter_cons, List.filter_cons]
      rw [val_cons_succ, val_cons_succ] at hne
      rw [ih j (by simpa using hj) hne]

theorem insertionInner_length (less : α → α → Bool) (a j : Nat) (d : List α) :
    (insertionInner less a j d).length = d.length := by
  induction j generalizing d with
  | zero => rfl
  | succ j ih =>
    unfold insertionInner
    split
    · rw [ih, length_Swap]
    · rfl

/-- On at most twelve elements `sort.Slice` is insertion sort. -/
theorem Slice_eq_insertionSort (less : α → α → Bool) (x : List α) (h : x.length ≤ 12) :
    Slice less x = insertionSortLessFunc less x 0 x.length := by
  unfold Slice pdqsortLessFunc
  dsimp only
  rw [if_pos (by omega)]

section Ranked

variable (rank : α → Int) (less : α → α → Bool)
variable (hless : ∀ x y, less x y = decide (rank x < rank y))
include hless

theorem insertionInner_filter (a j : Nat) (d : List α) (hj : j < d.length) (c : Int) :
    (insertionInner less a j d).filter (fun x => decide (rank x = c)) =
      d.filter (fun x => decide (rank x = c)) := by
  induction j generalizing d with
  | zero => rfl
  | succ j ih =>
    unfold insertionInner
    by_cases hc : a < j + 1 ∧ Less less d (j + 1) j = true
    · rw [if_pos hc]
      have hlt := (Less_iff rank less hless d (j + 1) j hj (by omega)).mp hc.2
      rw [ih (Swap d (j + 1) j) (by rw [length_Swap]; omega)]
      exact Swap_adjacent_filter rank d j hj (by omega) c
    · rw [if_neg hc]

theorem insertionFold_filter (a : Nat) (m i : Nat) (d : List α) (hb : i + m ≤ d.length)
    (c : Int) :
    ((List.range' i m).foldl (fun e k => insertionInner less a k e) d).filter
        (fun x => decide (rank x = c)) =
      d.filter (fun x => decide (rank x = c)) := by
  induction m generalizing i d with
  | zero => rfl
  | succ m ih =>
    rw [List.range'_succ, List.foldl_cons]
    have hlen : (insertionInner less a i d).length = d.length :=
      insertionInner_length less a i d
    rw [ih (i + 1) (insertionInner less a i d) (by rw [hlen]; omega)]
    exact insertionInner_filter rank less hless a i d (by omega) c

/-- Insertion sort keeps, for every rank, the elements of that rank in their
order. -/
theorem insertionSortLessFunc_filter (d : List α) (a b : Nat) (hb : b ≤ d.length) (c : Int) :
    (insertionSortLessFunc less d a b).filter (fun x => decide (rank x = c)) =
      d.filter (fun x => decide (rank x = c)) := by
  unfold insertionSortLessFunc
  by_cases h : a + 1 ≤ b
  · exact insertionFold_filter rank less hless a (b - (a + 1)) (a + 1) d (by omega) c
  · have e : b - (a + 1) = 0 := by omega
    rw [e]
    rfl

/-- Function `sort.Slice` returns a permutation of the slice in non-decreasing rank
order. -/
theorem Slice_spec (x : List α) :
    (Slice less x).Perm x ∧ (Slice less x).Pairwise (fun u v => rank u ≤ rank v) := by
  have h := pdqsortLessFunc_spec rank less hless (x.length + 1) x 0 x.length
    (bitsLen x.length) true true (by omega) (Nat.zero_le _) (Nat.le_refl _)
    (fun h0 => absurd h0 (Nat.lt_irrefl 0))
  have hlen : (Slice less x).length = x.length := h.1.length_eq
  refine ⟨h.1.perm, ?_⟩
  apply SortedOn.pairwise
  rw [hlen]
  exact h.2

/-- On at most twelve elements `sort.Slice` keeps, for every rank, the elements of
that rank in their order. -/
theorem Slice_filter (x : List α) (h : x.length ≤ 12) (c : Int) :
    (Slice less x).filter (fun u => decide (rank u = c)) =
      x.filter (fun u => decide (rank u = c)) := by
  rw [Slice_eq_insertionSort less x h]
  exact insertionSortLessFunc_filter rank less hless x 0 x.length (Nat.le_refl _) c

end Ranked

theorem reverseLoop_val (rank : α → Int) (fuel : Nat) (d : List α) (i j : Nat)
    (hj : j < d.length) (hfuel : j + 1 - i ≤ 2 * fuel) (k : Nat) :
    val rank (reverseLoop fuel d i j) k =
      if i ≤ k ∧ k ≤ j then val rank d (i + j - k) else val rank d k := by
  induction fuel generalizing d i j with
  | zero =>
    rw [if_neg (by omega)]
    rfl
  | succ fuel ih =>
    unfold reverseLoop
    by_cases h : i < j
    · rw [if_pos h, ih (Swap d i j) (i + 1) (j - 1) (by rw [length_Swap]; omega) (by omega)]
      have hi' : i < d.length := by omega
      by_cases hk : i + 1 ≤ k ∧ k ≤ j - 1
      · rw [if_pos hk, if_pos (by omega),
          val_Swap_other rank d i j _ hi' hj (by omega) (by omega)]
        congr 1
        omega
      · rw [if_neg hk]
        by_cases hki : k = i
        · rw [hki, val_Swap_left rank d i j hi' hj, if_pos (by omega)]
          congr 1
          omega
        · by_cases hkj : k = j
          · rw [hkj, val_Swap_right rank d i j hi' hj, if_pos (by omega)]
            congr 1
            omega
          · rw [val_Swap_other rank d i j k hi' hj hki hkj, if_neg (by omega)]
    · rw [if_neg h]
      by_cases hk : i ≤ k ∧ k ≤ j
      · rw [if_pos hk]
        congr 1
        omega
      · rw [if_neg hk]

/-- Function `reverseRange_func` puts the element of position `a + b - 1 - k` at position
`k` of the range. -/
theorem reverseRangeLessFunc_val (rank : α → Int) (d : List α) (a b : Nat) (hab : a < b)
    (hb : b ≤ d.length) (k : Nat) (hak : a ≤ k) (hkb : k < b) :
    val rank (reverseRangeLessFunc d a b) k = val rank d (a + b - 1 - k) := by
  unfold reverseRangeLessFunc
  rw [reverseLoop_val rank (b - a) d a (b - 1) (by omega) (by omega) k, if_pos (by omega)]
  congr 1
  omega

end GoSort

/-! ## Properties of the sort step and the request defaults -/

theorem byMemberCount_rank (x y : Channel) :
    byMemberCount x y = decide (-x.MemberCount < -y.MemberCount) := by
  unfold byMemberCount
  by_cases h : x.MemberCount > y.MemberCount
  · rw [decide_eq_true h, decide_eq_true (by omega)]
  · rw [decide_eq_false h, decide_eq_false (by omega)]

/-- The `"popularity"` sort step returns a permutation of the rows in
non-increasing order of member count. -/
theorem sortStep_popularity (rows : List Channel) :
    (sortStep "popularity" rows).Perm rows ∧
      (sortStep "popularity" rows).Pairwise (fun x y => x.MemberCount ≥ y.MemberCount) := by
  have h := GoSort.Slice_spec (fun r : Channel => -r.MemberCount) byMemberCount
    byMemberCount_rank rows
  have e : sortStep "popularity" rows = GoSort.Slice byMemberCount rows := by
    unfold sortStep
    rw [if_pos rfl]
  rw [e]
  refine ⟨h.1, h.2.imp ?_⟩
  intro x y hxy
  omega

/-- The `"popularity"` sort step keeps the rows of each member count in their
order when there are at most twelve rows. -/
theorem sortStep_popularity_short (rows : List Channel) (h : rows.length ≤ 12) (c : Int) :
    (sortStep "popularity" rows).filter (fun r => decide (r.MemberCount = c)) =
      rows.filter (fun r => decide (r.MemberCount = c)) := by
  have e : sortStep "popularity" rows = GoSort.Slice byMemberCount rows := by
    unfold sortStep
    rw [if_pos rfl]
  have hf := GoSort.Slice_filter (fun r : Channel => -r.MemberCount) byMemberCount
    byMemberCount_rank rows h (-c)
  have hp : (fun r : Channel => decide (-r.MemberCount = -c)) =
      (fun r : Channel => decide (r.MemberCount = c)) := by
    funext r
    by_cases hr : r.MemberCount = c
    · rw [decide_eq_true hr, decide_eq_true (by omega)]
    · rw [decide_eq_false hr, decide_eq_false (by omega)]
  rw [hp] at hf
  rw [e]
  exact hf

theorem GetString_default (request : CallToolRequest) (key defaultValue : String)
    (h : request.arguments.lookup key = none) :
    request.GetString key defaultValue = defaultValue := by
  unfold CallToolRequest.GetString
  rw [h]

theorem GetStringSlice_default (request : CallToolRequest) (key : String)
    (defaultValue : List String) (h : request.arguments.lookup key = none) :
    request.GetStringSlice key defaultValue = defaultValue := by
  unfold CallToolRequest.GetStringSlice
  rw [h]

/-- Every call of a returning loop carries the types, limit and archive flag
the loop started with. -/
theorem fetchLoop_calls_types (api : Api) (fuel : Nat) (types : List String) (t : LoopState)
    (h : fetchLoop api fuel (initialState types) = some t)
    (p : GetConversationsParameters) (hp : p ∈ t.calls) :
    p.Types = types ∧ p.Limit = 100 ∧ p.ExcludeArchived = true := by
  obtain ⟨n, _, _, _, hcalls, _, _⟩ := fetchLoop_calls api fuel _ t h
  rw [hcalls] at hp
  simp only [initialState, List.nil_append, List.mem_map, List.mem_range] at hp
  obtain ⟨i, _, hi⟩ := hp
  rw [← hi]
  exact stateAfter_types api _ i

/-! ## Claims -/

/-- C1 (at the scenario of the specification): with page 1 of three records
and cursor `"abc"` and page 2 of two records and an empty cursor, the loop
leaves at page 2 before appending it, so it accumulates the three records of
page 1 only and the handler encodes three rows, not five. -/
theorem final_page_is_dropped :
    (fetchLoop (apiOfPages [pageOne, pageTwo]) 2 (initialState PubChanType)).map
        (fun s => s.channels) = some pageOne.chans ∧
    (fetchLoop (apiOfPages [pageOne, pageTwo]) 2 (initialState PubChanType)).map
        (fun s => s.calls.length) = some 2 ∧
    (ChannelsHandler (Except.ok (apiOfPages [pageOne, pageTwo])) emptyRequest 2).map
        (fun o => o.result) =
      some (Except.ok
        "ID,Name,Topic,Purpose,MemberCount\nC1,#general,,,10\nC2,#random,,,7\nC3,#dev,,,4\n") :=
  ⟨rfl, rfl, rfl⟩

/-- C2 (at a failing upstream): when the first call succeeds with three
records and the second call fails, the handler returns a successful text
result holding the three rows fetched before the failure; the error is
overwritten by the encoder's nil error and never returned. -/
theorem upstream_error_is_swallowed :
    (fetchLoop (apiOfPages [pageOne, failedPage]) 2 (initialState PubChanType)).map
        (fun s => s.err) = some (some "slack: request failed") ∧
    (ChannelsHandler (Except.ok (apiOfPages [pageOne, failedPage])) emptyRequest 2).map
        (fun o => o.result) =
      some (Except.ok
        "ID,Name,Topic,Purpose,MemberCount\nC1,#general,,,10\nC2,#random,,,7\nC3,#dev,,,4\n") :=
  ⟨rfl, rfl⟩

/-- With a session the handler never returns a failure, whatever the upstream
answers: every result is a text payload. -/
theorem ChannelsHandler_ok_never_fails (api : Api) (request : CallToolRequest) (fuel : Nat)
    (out : Outcome) (h : ChannelsHandler (Except.ok api) request fuel = some out) :
    ∃ text, out.result = Except.ok text := by
  rw [ChannelsHandler_ok] at h
  cases hres : fetchLoop api fuel
      (initialState (request.GetStringSlice "channel_types" PubChanType)) with
  | none => rw [hres] at h; exact absurd h (by simp)
  | some s =>
    rw [hres] at h
    have := Option.some.inj h
    exact ⟨_, by rw [← this]; rfl⟩

/-- C5: for a sort policy other than `"popularity"` the sort step returns every
row list unchanged, and the handler encodes the rows in the order normalisation
produced them, as a successful text result. -/
theorem unknown_sort_policy_keeps_order (api : Api) (request : CallToolRequest) (fuel : Nat)
    (h : request.GetString "sort" "popularity" ≠ "popularity") :
    (∀ rows, sortStep (request.GetString "sort" "popularity") rows = rows) ∧
    ChannelsHandler (Except.ok api) request fuel =
      (fetchLoop api fuel
          (initialState (request.GetStringSlice "channel_types" PubChanType))).map
        (fun s =>
          { result := Except.ok (writeRecord (ChannelFields.map columnName) ++
              String.join ((normalize s.channels).map (fun row => writeRecord (rowFields row))))
            calls := s.calls }) := by
  have hid : ∀ rows, sortStep (request.GetString "sort" "popularity") rows = rows := by
    intro rows
    unfold sortStep
    rw [if_neg h]
  refine ⟨hid, ?_⟩
  rw [ChannelsHandler_ok]
  congr 1
  funext s
  rw [hid]
  rfl

/-- A request that asks for the sort policy `"name"`. -/
theorem unknown_sort_policy_keeps_order_witness :
    ({ arguments := [("sort", ArgValue.str "name")] } : CallToolRequest).GetString
        "sort" "popularity" ≠ "popularity" ∧
    ((∀ rows, sortStep (({ arguments := [("sort", ArgValue.str "name")] } :
        CallToolRequest).GetString "sort" "popularity") rows = rows) ∧
    ChannelsHandler (Except.ok (apiOfPages [pageTwo, pageTwo]))
        { arguments := [("sort", ArgValue.str "name")] } 1 =
      (fetchLoop (apiOfPages [pageTwo, pageTwo]) 1
          (initialState (({ arguments := [("sort", ArgValue.str "name")] } :
            CallToolRequest).GetStringSlice "channel_types" PubChanType))).map
        (fun s =>
          { result := Except.ok (writeRecord (ChannelFields.map columnName) ++
              String.join ((normalize s.channels).map (fun row => writeRecord (rowFields row))))
            calls := s.calls })) :=
  ⟨by decide, unknown_sort_policy_keeps_order _ _ _ (by decide)⟩

/-- C6 as stated fails: the text encoded for an empty row collection is not
the lower-case header, with or without its line end. -/
theorem empty_header_is_not_lower_case :
    MarshalBytes [] ≠ Except.ok "id,name,topic,purpose,memberCount\n" ∧
    MarshalBytes [] ≠ Except.ok "id,name,topic,purpose,memberCount" := by
  constructor <;> intro h <;> exact absurd (Except.ok.inj h) (by decide)

/-- C6 (amended): encoding an empty row collection succeeds and yields exactly
the header line `ID,Name,Topic,Purpose,MemberCount`, the Go field names, with
no data rows. -/
theorem empty_rows_encode_header_only :
    MarshalBytes [] = Except.ok "ID,Name,Topic,Purpose,MemberCount\n" := rfl

/-- C7: normalisation is a total function that yields one row per record in
the same order; row `i` has the record's ID, `"#"` followed by its name, its
topic value, its purpose value and its member count, whatever the kind flags
of the record. -/
theorem normalize_one_row_per_record (channels : List SlackChannel) :
    (normalize channels).length = channels.length ∧
    ∀ i : Nat, (normalize channels)[i]? =
      (channels[i]?).map (fun c =>
        ({ ID := c.ID, Name := "#" ++ c.Name, Topic := c.Topic.Value,
           Purpose := c.Purpose.Value, MemberCount := c.NumMembers } : Channel)) := by
  rw [normalize_eq_map]
  refine ⟨List.length_map _ _, fun i => ?_⟩
  rw [List.getElem?_map]
  rfl

/-- C8: when the credential provider fails, the handler returns that error with
no result payload and makes no upstream call, for every request and whatever
the fuel. -/
theorem provider_failure_is_returned (err : GoError) (request : CallToolRequest) (fuel : Nat) :
    ChannelsHandler (Except.error err) request fuel =
      some { result := Except.error err, calls := [] } := rfl

/-- C9 as stated fails: against an upstream that returns a non-empty cursor on
every call the handler never returns, whatever the number of iterations. -/
theorem endless_upstream_never_returns :
    ¬ ∃ fuel, (ChannelsHandler (Except.ok endlessApi) emptyRequest fuel).isSome = true := by
  rintro ⟨fuel, h⟩
  rw [ChannelsHandler_ok, fetchLoop_none_of_no_empty] at h
  · exact absurd h (by decide)
  · intro k
    show ("next" : String) ≠ ""
    decide

/-- C9 (amended): the loop has no cap; the handler returns for some number of
iterations exactly when some upstream call along the cursor chain returns an
empty cursor. -/
theorem handler_returns_iff_empty_cursor (api : Api) (request : CallToolRequest) :
    (∃ fuel, (ChannelsHandler (Except.ok api) request fuel).isSome = true) ↔
      ∃ n, (pageAt api
        (initialState (request.GetStringSlice "channel_types" PubChanType)) n).nextcur = "" := by
  constructor
  · rintro ⟨fuel, h⟩
    rw [ChannelsHandler_ok] at h
    cases hres : fetchLoop api fuel
        (initialState (request.GetStringSlice "channel_types" PubChanType)) with
    | none => rw [hres] at h; exact absurd h (by simp)
    | some t =>
      obtain ⟨n, _, _, hlast, _⟩ := (fetchLoop_eq_some_iff api fuel _ t).mp hres
      exact ⟨n, hlast⟩
  · intro h
    classical
    refine ⟨Nat.find h + 1, ?_⟩
    rw [ChannelsHandler_ok,
      fetchLoop_of_first_empty api _ (Nat.find h) (Nat.find h + 1)
        (fun k hk => Nat.find_min h hk) (Nat.find_spec h) (Nat.lt_succ_self _)]
    rfl

theorem pageAt_initial (api : Api) (types : List String) (k : Nat) :
    pageAt api (initialState types) k =
      api.GetConversationsContext k (stateAfter api (initialState types) k).params := by
  simp [pageAt, stateAfter_calls_length, initialState]

/-- C4 as stated fails: on thirteen rows, twelve of them tied at five members,
the sort step moves row `G` before row `A` and row `B` to the end, although
`A`, `B`, `G` have the same member count and come in this order. -/
theorem popularity_sort_reorders_ties :
    (sortStep "popularity" tieRows).map (fun r => r.ID) =
      ["M", "G", "C", "D", "E", "F", "A", "H", "I", "J", "K", "L", "B"] ∧
    (sortStep "popularity" tieRows).filter (fun r => decide (r.MemberCount = 5)) ≠
      tieRows.filter (fun r => decide (r.MemberCount = 5)) := by
  constructor
  · rfl
  · decide

/-- C4 (amended): the `"popularity"` sort returns a permutation of the rows in
non-increasing order of member count; for at most twelve rows it is stable,
the rows of each member count keeping their order. -/
theorem popularity_sort_sorted_and_stable_when_short (rows : List Channel) :
    (sortStep "popularity" rows).Perm rows ∧
    (sortStep "popularity" rows).Pairwise (fun x y => x.MemberCount ≥ y.MemberCount) ∧
    (rows.length ≤ 12 → ∀ c : Int,
      (sortStep "popularity" rows).filter (fun r => decide (r.MemberCount = c)) =
        rows.filter (fun r => decide (r.MemberCount = c))) :=
  ⟨(sortStep_popularity rows).1, (sortStep_popularity rows).2,
    fun h c => sortStep_popularity_short rows h c⟩

/-- Three rows with a tie: the tied rows `A` and `C` keep their order. -/
theorem popularity_sort_sorted_and_stable_when_short_witness :
    shortRows.length ≤ 12 ∧
    (sortStep "popularity" shortRows).map (fun r => r.ID) = ["B", "A", "C"] ∧
    ∀ c : Int,
      (sortStep "popularity" shortRows).filter (fun r => decide (r.MemberCount = c)) =
        shortRows.filter (fun r => decide (r.MemberCount = c)) :=
  ⟨by decide, rfl, (popularity_sort_sorted_and_stable_when_short shortRows).2.2 (by decide)⟩

/-! ## Calls and output text of a returning invocation -/

/-- The text `gocsv.MarshalBytes` returns, spelled out: the header line, then
for every row the five fields in declaration order, separated by commas and
closed by a line feed. -/
theorem MarshalBytes_eq (rows : List Channel) :
    MarshalBytes rows = Except.ok ("ID,Name,Topic,Purpose,MemberCount\n" ++
      String.join (rows.map (fun row =>
        writeField row.ID ++ "," ++ writeField row.Name ++ "," ++ writeField row.Topic ++ "," ++
          writeField row.Purpose ++ "," ++ writeField (toString row.MemberCount) ++ "\n"))) := by
  unfold MarshalBytes
  have hh : writeRecord (ChannelFields.map columnName) = "ID,Name,Topic,Purpose,MemberCount\n" := by
    decide
  rw [hh]
  rfl

theorem GetStringSlice_of_strings (request : CallToolRequest) (key : String)
    (defaultValue types : List String)
    (h : request.arguments.lookup key = some (ArgValue.arr (types.map some))) :
    request.GetStringSlice key defaultValue = types := by
  unfold CallToolRequest.GetStringSlice
  rw [h]
  simp [List.filterMap_map]

/-- The calls of a returning loop: the first carries the starting parameters,
every call but the last returned a non-empty cursor that the next call
carries, and the last call returned an empty cursor. -/
theorem fetchLoop_chain (api : Api) (fuel : Nat) (types : List String) (t : LoopState)
    (h : fetchLoop api fuel (initialState types) = some t) :
    t.calls[0]? = some
      { Cursor := ""
        ExcludeArchived := true
        Limit := 100
        Types := types } ∧
    ∀ (k : Nat) (p : GetConversationsParameters), t.calls[k]? = some p →
      if k + 1 < t.calls.length then
        (api.GetConversationsContext k p).nextcur ≠ "" ∧
        t.calls[k + 1]? =
          some { p with Cursor := (api.GetConversationsContext k p).nextcur }
      else (api.GetConversationsContext k p).nextcur = "" := by
  obtain ⟨n, _, hbefore, hlast, hcalls, _, _⟩ := fetchLoop_calls api fuel _ t h
  have hc : t.calls = (List.range (n + 1)).map (fun i =>
      (stateAfter api (initialState types) i).params) := by
    rw [hcalls]; rfl
  have hget : ∀ k, k < n + 1 → t.calls[k]? = some
      (stateAfter api (initialState types) k).params := by
    intro k hk
    rw [hc, List.getElem?_map, List.getElem?_range hk]
    rfl
  have hlen : t.calls.length = n + 1 := by rw [hc]; simp
  refine ⟨hget 0 (Nat.succ_pos n), ?_⟩
  intro k p hp
  have hk : k < n + 1 := by
    rw [← hlen]
    exact (List.getElem?_eq_some_iff.mp hp).1
  have hpk := hget k hk
  rw [hp] at hpk
  have hpe := Option.some.inj hpk
  rw [hlen]
  by_cases hkn : k + 1 < n + 1
  · rw [if_pos hkn]
    have hne := hbefore k (Nat.lt_of_succ_lt_succ hkn)
    rw [pageAt_initial, ← hpe] at hne
    refine ⟨hne, ?_⟩
    rw [hget (k + 1) hkn]
    have hstep : (stateAfter api (initialState types) (k + 1)).params =
        { (stateAfter api (initialState types) k).params with
          Cursor := (pageAt api (initialState types) k).nextcur } :=
      rfl
    rw [hstep, pageAt_initial, ← hpe]
  · rw [if_neg hkn]
    have hkeq : k = n := by omega
    rw [← hkeq, pageAt_initial, ← hpe] at hlast
    exact hlast

/-- With enough fuel the loop returns after one call more than the position of
the first empty cursor. -/
theorem fetchLoop_returns (api : Api) (types : List String) (n fuel : Nat)
    (hbefore : ∀ k, k < n → (pageAt api (initialState types) k).nextcur ≠ "")
    (hlast : (pageAt api (initialState types) n).nextcur = "") (hfuel : n < fuel) :
    ∃ t, fetchLoop api fuel (initialState types) = some t ∧ t.calls.length = n + 1 := by
  refine ⟨_, fetchLoop_of_first_empty api _ n fuel hbefore hlast hfuel, ?_⟩
  simp [finish, stateAfter_calls_length, initialState]

/-- The types a request asks for: the strings of its `channel_types` array, or
`["public_channel"]` when it has no such argument. -/
theorem GetStringSlice_requested (request : CallToolRequest) (types : List String)
    (hreq : request.arguments.lookup "channel_types" = some (ArgValue.arr (types.map some)) ∨
      (request.arguments.lookup "channel_types" = none ∧ types = ["public_channel"])) :
    request.GetStringSlice "channel_types" PubChanType = types := by
  rcases hreq with h | ⟨h, ht⟩
  · exact GetStringSlice_of_strings request _ _ types h
  · rw [GetStringSlice_default request _ _ h, ht]
    rfl

/-! ## Claims on the upstream calls and on the default request -/

/-- C10: for a request whose `channel_types` argument is the array `types` (or
is absent, `types` then being `["public_channel"]`): in a returning invocation
the first call carries an empty cursor, limit 100, `ExcludeArchived` and the
types `types`, as does every later call apart from the cursor; every call that
is not the last returned a non-empty cursor and the next call carries exactly
that cursor with the other parameters unchanged; the last call is the one that
returned an empty cursor.  When call `n` (counted from 0) is the first to
return an empty cursor, the invocation returns after exactly `n + 1` calls. -/
theorem calls_are_cursor_chained (api : Api) (request : CallToolRequest) (fuel : Nat)
    (types : List String)
    (hreq : request.arguments.lookup "channel_types" = some (ArgValue.arr (types.map some)) ∨
      (request.arguments.lookup "channel_types" = none ∧ types = ["public_channel"])) :
    (∀ out, ChannelsHandler (Except.ok api) request fuel = some out →
      out.calls[0]? = some
        { Cursor := ""
          ExcludeArchived := true
          Limit := 100
          Types := types } ∧
      (∀ p, p ∈ out.calls → p.Types = types ∧ p.Limit = 100 ∧ p.ExcludeArchived = true) ∧
      ∀ (k : Nat) (p : GetConversationsParameters), out.calls[k]? = some p →
        if k + 1 < out.calls.length then
          (api.GetConversationsContext k p).nextcur ≠ "" ∧
          out.calls[k + 1]? =
            some { p with Cursor := (api.GetConversationsContext k p).nextcur }
        else (api.GetConversationsContext k p).nextcur = "") ∧
    ∀ n, (∀ k, k < n → (pageAt api (initialState types) k).nextcur ≠ "") →
      (pageAt api (initialState types) n).nextcur = "" → n < fuel →
      ∃ out, ChannelsHandler (Except.ok api) request fuel = some out ∧
        out.calls.length = n + 1 := by
  have htypes := GetStringSlice_requested request types hreq
  have hdef := ChannelsHandler_ok api request fuel
  rw [htypes] at hdef
  constructor
  · intro out h
    rw [hdef] at h
    cases hres : fetchLoop api fuel (initialState types) with
    | none => rw [hres] at h; exact absurd h (by simp)
    | some t =>
      rw [hres] at h
      have hout : out.calls = t.calls := by rw [← Option.some.inj h]
      rw [hout]
      have hch := fetchLoop_chain api fuel types t hres
      exact ⟨hch.1, fun p hp => fetchLoop_calls_types api fuel types t hres p hp, hch.2⟩
  · intro n hbefore hlast hfuel
    obtain ⟨t, ht, hlen⟩ := fetchLoop_returns api types n fuel hbefore hlast hfuel
    rw [hdef, ht]
    exact ⟨_, rfl, hlen⟩

/-- A request for the types `["im", "mpim"]` against an upstream that serves
three pages: the three calls carry these types and the cursors `""`, `"abc"`,
`"abc"`. -/
theorem calls_are_cursor_chained_witness :
    ({ arguments := [("channel_types", ArgValue.arr [some "im", some "mpim"])] } :
        CallToolRequest).arguments.lookup "channel_types" =
      some (ArgValue.arr (["im", "mpim"].map some)) ∧
    (ChannelsHandler (Except.ok (apiOfPages [pageOne, pageOne, pageTwo]))
        { arguments := [("channel_types", ArgValue.arr [some "im", some "mpim"])] } 3).map
        (fun o => o.calls) =
      some [{ Cursor := "", ExcludeArchived := true, Limit := 100, Types := ["im", "mpim"] },
        { Cursor := "abc", ExcludeArchived := true, Limit := 100, Types := ["im", "mpim"] },
        { Cursor := "abc", ExcludeArchived := true, Limit := 100, Types := ["im", "mpim"] }] ∧
    ((∀ out, ChannelsHandler (Except.ok (apiOfPages [pageOne, pageOne, pageTwo]))
        { arguments := [("channel_types", ArgValue.arr [some "im", some "mpim"])] } 3
          = some out →
      out.calls[0]? = some
        { Cursor := ""
          ExcludeArchived := true
          Limit := 100
          Types := ["im", "mpim"] } ∧
      (∀ p, p ∈ out.calls →
        p.Types = ["im", "mpim"] ∧ p.Limit = 100 ∧ p.ExcludeArchived = true) ∧
      ∀ (k : Nat) (p : GetConversationsParameters), out.calls[k]? = some p →
        if k + 1 < out.calls.length then
          ((apiOfPages [pageOne, pageOne, pageTwo]).GetConversationsContext k p).nextcur ≠ "" ∧
          out.calls[k + 1]? = some { p with
            Cursor := ((apiOfPages [pageOne, pageOne, pageTwo]).GetConversationsContext
              k p).nextcur }
        else ((apiOfPages [pageOne, pageOne, pageTwo]).GetConversationsContext k p).nextcur
          = "") ∧
    ∀ n, (∀ k, k < n → (pageAt (apiOfPages [pageOne, pageOne, pageTwo])
          (initialState ["im", "mpim"]) k).nextcur ≠ "") →
      (pageAt (apiOfPages [pageOne, pageOne, pageTwo])
        (initialState ["im", "mpim"]) n).nextcur = "" → n < 3 →
      ∃ out, ChannelsHandler (Except.ok (apiOfPages [pageOne, pageOne, pageTwo]))
          { arguments := [("channel_types", ArgValue.arr [some "im", some "mpim"])] } 3
            = some out ∧
        out.calls.length = n + 1) :=
  ⟨rfl, rfl, calls_are_cursor_chained _ _ 3 ["im", "mpim"] (Or.inl rfl)⟩

/-- C3: for a request that supplies neither `sort` nor `channel_types`, the
handler gives exactly what it gives for `sort = "popularity"` and
`channel_types = ["public_channel"]`.  When call `n` (counted from 0) is the
first to return an empty cursor and the fuel allows it, the handler returns:
it has made `n + 1` calls, the first with an empty cursor, limit 100,
`ExcludeArchived` and the types `["public_channel"]`, and all of them with
these types; the text returned is the header line followed by one line per
row, ending in the row's member count, where the rows are the rows of the
accumulated records rearranged in non-increasing order of member count. -/
theorem default_request_sorts_by_popularity (api : Api) (request : CallToolRequest)
    (n fuel : Nat) (hsort : request.arguments.lookup "sort" = none)
    (htypes : request.arguments.lookup "channel_types" = none)
    (hbefore : ∀ k, k < n → (pageAt api (initialState ["public_channel"]) k).nextcur ≠ "")
    (hlast : (pageAt api (initialState ["public_channel"]) n).nextcur = "")
    (hfuel : n < fuel) :
    ChannelsHandler (Except.ok api) request fuel =
      ChannelsHandler (Except.ok api)
        { arguments := [("sort", ArgValue.str "popularity"),
            ("channel_types", ArgValue.arr [some "public_channel"])] } fuel ∧
    ∃ (out : Outcome) (s : LoopState) (rows : List Channel),
      ChannelsHandler (Except.ok api) request fuel = some out ∧
      fetchLoop api fuel (initialState ["public_channel"]) = some s ∧
      out.calls = s.calls ∧
      out.calls.length = n + 1 ∧
      out.calls[0]? = some
        { Cursor := ""
          ExcludeArchived := true
          Limit := 100
          Types := ["public_channel"] } ∧
      (∀ p, p ∈ out.calls → p.Types = ["public_channel"]) ∧
      rows.Perm (s.channels.map (fun c =>
        ({ ID := c.ID, Name := "#" ++ c.Name, Topic := c.Topic.Value,
           Purpose := c.Purpose.Value, MemberCount := c.NumMembers } : Channel))) ∧
      rows.Pairwise (fun x y => x.MemberCount ≥ y.MemberCount) ∧
      out.result = Except.ok ("ID,Name,Topic,Purpose,MemberCount\n" ++
        String.join (rows.map (fun row =>
          writeField row.ID ++ "," ++ writeField row.Name ++ "," ++ writeField row.Topic ++
            "," ++ writeField row.Purpose ++ "," ++ writeField (toString row.MemberCount) ++
            "\n"))) := by
  have h1 : request.GetString "sort" "popularity" = "popularity" :=
    GetString_default request _ _ hsort
  have h2 : request.GetStringSlice "channel_types" PubChanType = ["public_channel"] :=
    GetStringSlice_default request _ _ htypes
  have hdef : ChannelsHandler (Except.ok api) request fuel =
      (fetchLoop api fuel (initialState ["public_channel"])).map
        (fun s =>
          { result := MarshalBytes (sortStep "popularity" (normalize s.channels))
            calls := s.calls }) := by
    rw [ChannelsHandler_ok, h1, h2]
  refine ⟨?_, ?_⟩
  · rw [hdef, ChannelsHandler_ok]
    rfl
  · obtain ⟨s, hs, hlen⟩ := fetchLoop_returns api ["public_channel"] n fuel hbefore hlast hfuel
    refine ⟨{ result := MarshalBytes (sortStep "popularity" (normalize s.channels))
              calls := s.calls }, s, sortStep "popularity" (normalize s.channels),
      ?_, hs, rfl, hlen, (fetchLoop_chain api fuel _ s hs).1,
      fun p hp => (fetchLoop_calls_types api fuel _ s hs p hp).1, ?_,
      (sortStep_popularity _).2, MarshalBytes_eq _⟩
    · rw [hdef, hs]
      rfl
    · have hperm := (sortStep_popularity (normalize s.channels)).1
      have hn : normalize s.channels = s.channels.map toRow := normalize_eq_map s.channels
      exact hperm.trans (by rw [hn]; exact List.Perm.refl _)

/-- The request without arguments against an upstream whose first page holds
the member counts 4, 12, 7: two calls with the types `["public_channel"]`, and
the rows come out in the order 12, 7, 4. -/
theorem default_request_sorts_by_popularity_witness :
    emptyRequest.arguments.lookup "sort" = none ∧
    emptyRequest.arguments.lookup "channel_types" = none ∧
    (ChannelsHandler (Except.ok (apiOfPages [pageMixed, pageTwo])) emptyRequest 2).map
        (fun o => o.calls) =
      some [{ Cursor := "", ExcludeArchived := true, Limit := 100, Types := ["public_channel"] },
        { Cursor := "abc", ExcludeArchived := true, Limit := 100,
          Types := ["public_channel"] }] ∧
    (ChannelsHandler (Except.ok (apiOfPages [pageMixed, pageTwo])) emptyRequest 2).map
        (fun o => o.result) =
      some (Except.ok
        "ID,Name,Topic,Purpose,MemberCount\nC2,#random,,,12\nC3,#dev,,,7\nC1,#general,,,4\n") ∧
    (ChannelsHandler (Except.ok (apiOfPages [pageMixed, pageTwo])) emptyRequest 2 =
      ChannelsHandler (Except.ok (apiOfPages [pageMixed, pageTwo]))
        { arguments := [("sort", ArgValue.str "popularity"),
            ("channel_types", ArgValue.arr [some "public_channel"])] } 2 ∧
    ∃ (out : Outcome) (s : LoopState) (rows : List Channel),
      ChannelsHandler (Except.ok (apiOfPages [pageMixed, pageTwo])) emptyRequest 2 = some out ∧
      fetchLoop (apiOfPages [pageMixed, pageTwo]) 2 (initialState ["public_channel"])
        = some s ∧
      out.calls = s.calls ∧
      out.calls.length = 1 + 1 ∧
      out.calls[0]? = some
        { Cursor := ""
          ExcludeArchived := true
          Limit := 100
          Types := ["public_channel"] } ∧
      (∀ p, p ∈ out.calls → p.Types = ["public_channel"]) ∧
      rows.Perm (s.channels.map (fun c =>
        ({ ID := c.ID, Name := "#" ++ c.Name, Topic := c.Topic.Value,
           Purpose := c.Purpose.Value, MemberCount := c.NumMembers } : Channel))) ∧
      rows.Pairwise (fun x y => x.MemberCount ≥ y.MemberCount) ∧
      out.result = Except.ok ("ID,Name,Topic,Purpose,MemberCount\n" ++
        String.join (rows.map (fun row =>
          writeField row.ID ++ "," ++ writeField row.Name ++ "," ++ writeField row.Topic ++
            "," ++ writeField row.Purpose ++ "," ++ writeField (toString row.MemberCount) ++
            "\n")))) :=
  ⟨rfl, rfl, rfl, rfl,
    default_request_sorts_by_popularity (apiOfPages [pageMixed, pageTwo]) emptyRequest 1 2
      rfl rfl
      (fun k hk => by
        have hk0 : k = 0 := by omega
        subst hk0
        decide)
      (by decide) (by decide)⟩

end SlackMcp
